import Mathlib

/-!
Verification of the skyline block-linear texture layout calculator, swizzle
copier and Maxwell DMA engine front-end.

The definitions below are a shallow embedding of
`app/src/main/cpp/skyline/gpu/texture/layout.cpp` (the authoritative, newer
version of the file), of the older copy of the same file (which differs only
in the width-coalescing condition of `CopyBlockLinearInternal`, modelled as
`CopyBlockLinearInternalOld`), and of `maxwell_dma.cpp`.

Byte buffers are modelled as functions `Nat → Nat` (byte offset to byte
value); the copier loops are modelled as lists of element moves applied in
iteration order, which mirrors the source exactly because every write's value
is read from the (never modified) source buffer.
-/

set_option maxHeartbeats 2000000
set_option linter.unusedVariables false

namespace Skyline

/-- Modelled from the spec: `util::DivideCeil` (ceiling division), used by the
layout code; the missing `util` header defines it as `(a + b - 1) / b`. -/
def divideCeil (a b : Nat) : Nat := (a + b - 1) / b

/-- Modelled from the spec: `util::AlignUp`, rounds `a` up to a multiple of
`b` (the source's bitwise form coincides with this for power-of-two `b`). -/
def alignUp (a b : Nat) : Nat := divideCeil a b * b

/-- Modelled from the spec: `util::AlignDown`, rounds `a` down to a multiple
of `b`. -/
def alignDown (a b : Nat) : Nat := a / b * b

/-- Modelled from the spec: `util::IsAligned`. -/
def isAligned (a b : Nat) : Bool := a % b == 0

/-- Dimensions of a texture in texels (`gpu::texture::Dimensions`). -/
structure Dimensions where
  width : Nat
  height : Nat
  depth : Nat
deriving DecidableEq, Repr

/-- The width of a sector in bytes (`SectorWidth` in layout.cpp). -/
def SectorWidth : Nat := 16

/-- The height of a sector in lines (`SectorHeight` in layout.cpp). -/
def SectorHeight : Nat := 2

/-- The width of a GOB in bytes (`GobWidth` in layout.cpp). -/
def GobWidth : Nat := 64

/-- The height of a GOB in lines (`GobHeight` in layout.cpp). -/
def GobHeight : Nat := 8

/-- Single-layer `GetBlockLinearLayerSize` from layout.cpp (lines 21-32). -/
def GetBlockLinearLayerSize (dimensions : Dimensions)
    (formatBlockWidth formatBlockHeight formatBpb : Nat)
    (gobBlockHeight gobBlockDepth : Nat) : Nat :=
  let robLineWidth := divideCeil dimensions.width formatBlockWidth
  let robLineBytes := alignUp (robLineWidth * formatBpb) GobWidth
  let robHeight := GobHeight * gobBlockHeight
  let surfaceHeightLines := divideCeil dimensions.height formatBlockHeight
  let surfaceHeightRobs := divideCeil surfaceHeightLines robHeight
  let robDepth := alignUp dimensions.depth gobBlockDepth
  robLineBytes * robHeight * surfaceHeightRobs * robDepth

/-- `CalculateBlockGobs` from layout.cpp (lines 34-39); `Nat.nextPowerOfTwo`
matches `std::bit_ceil` on naturals (both return 1 on 0). -/
def CalculateBlockGobs (blockGobs surfaceGobs : Nat) : Nat :=
  if surfaceGobs > blockGobs then blockGobs
  else Nat.nextPowerOfTwo surfaceGobs

/-- Loop body accumulation of the multi-mip `GetBlockLinearLayerSize`
(layout.cpp lines 48-59), as a recursion over the remaining level count. -/
def GetBlockLinearLayerSizeAux (gobsWidth gobsHeight gobsDepth : Nat)
    (gobBlockHeight gobBlockDepth : Nat) : Nat → Nat
  | 0 => 0
  | Nat.succ n =>
    (GobWidth * gobsWidth) * (GobHeight * alignUp gobsHeight gobBlockHeight)
        * alignUp gobsDepth gobBlockDepth
      + GetBlockLinearLayerSizeAux (max (gobsWidth / 2) 1) (max (gobsHeight / 2) 1)
          (max (gobsDepth / 2) 1)
          (CalculateBlockGobs gobBlockHeight (max (gobsHeight / 2) 1))
          (CalculateBlockGobs gobBlockDepth (max (gobsDepth / 2) 1)) n

/-- Multi-mip `GetBlockLinearLayerSize` overload from layout.cpp
(lines 41-62); the parameter order (block height before block width) follows
the source. -/
def GetBlockLinearLayerSizeMultiMip (dimensions : Dimensions)
    (formatBlockHeight formatBlockWidth formatBpb : Nat)
    (gobBlockHeight gobBlockDepth levelCount : Nat) (isMultiLayer : Bool) : Nat :=
  let gobsWidth := divideCeil (divideCeil dimensions.width formatBlockWidth * formatBpb) GobWidth
  let gobsHeight := divideCeil (divideCeil dimensions.height formatBlockHeight) GobHeight
  let gobsDepth := dimensions.depth
  let layerAlignment := GobWidth * GobHeight * gobBlockHeight * gobBlockDepth
  let totalSize := GetBlockLinearLayerSizeAux gobsWidth gobsHeight gobsDepth
    gobBlockHeight gobBlockDepth levelCount
  if isMultiLayer then alignUp totalSize layerAlignment else totalSize

/-- Per-mip-level layout record (`gpu::texture::MipLevelLayout`). -/
structure MipLevelLayout where
  dimensions : Dimensions
  linearSize : Nat
  targetLinearSize : Nat
  blockLinearSize : Nat
  gobBlockHeight : Nat
  gobBlockDepth : Nat
deriving DecidableEq, Repr

/-- Loop of `GetBlockLinearMipLayout` (layout.cpp lines 72-93), as a recursion
over the remaining level count; the mutable loop state (dimensions, gobs
sizes, block gobs) is passed explicitly. -/
def GetBlockLinearMipLayoutAux (formatBlockHeight formatBlockWidth formatBpb : Nat)
    (targetFormatBlockHeight targetFormatBlockWidth targetFormatBpb : Nat)
    (dimensions : Dimensions) (gobsWidth gobsHeight : Nat)
    (gobBlockHeight gobBlockDepth : Nat) : Nat → List MipLevelLayout
  | 0 => []
  | Nat.succ n =>
    let linearSize := divideCeil dimensions.width formatBlockWidth * formatBpb
      * divideCeil dimensions.height formatBlockHeight * dimensions.depth
    let targetLinearSize := if targetFormatBpb = 0 then linearSize else
      divideCeil dimensions.width targetFormatBlockWidth * targetFormatBpb
        * divideCeil dimensions.height targetFormatBlockHeight * dimensions.depth
    { dimensions := dimensions
      linearSize := linearSize
      targetLinearSize := targetLinearSize
      blockLinearSize := (GobWidth * gobsWidth)
        * (GobHeight * alignUp gobsHeight gobBlockHeight)
        * alignUp dimensions.depth gobBlockDepth
      gobBlockHeight := gobBlockHeight
      gobBlockDepth := gobBlockDepth }
      :: GetBlockLinearMipLayoutAux formatBlockHeight formatBlockWidth formatBpb
          targetFormatBlockHeight targetFormatBlockWidth targetFormatBpb
          ⟨max (dimensions.width / 2) 1, max (dimensions.height / 2) 1,
            max (dimensions.depth / 2) 1⟩
          (max (gobsWidth / 2) 1) (max (gobsHeight / 2) 1)
          (CalculateBlockGobs gobBlockHeight (max (gobsHeight / 2) 1))
          (CalculateBlockGobs gobBlockDepth (max (dimensions.depth / 2) 1)) n

/-- `GetBlockLinearMipLayout` from layout.cpp (lines 64-96). -/
def GetBlockLinearMipLayout (dimensions : Dimensions)
    (formatBlockHeight formatBlockWidth formatBpb : Nat)
    (targetFormatBlockHeight targetFormatBlockWidth targetFormatBpb : Nat)
    (gobBlockHeight gobBlockDepth levelCount : Nat) : List MipLevelLayout :=
  let gobsWidth := divideCeil (divideCeil dimensions.width formatBlockWidth * formatBpb) GobWidth
  let gobsHeight := divideCeil (divideCeil dimensions.height formatBlockHeight) GobHeight
  GetBlockLinearMipLayoutAux formatBlockHeight formatBlockWidth formatBpb
    targetFormatBlockHeight targetFormatBlockWidth targetFormatBpb
    dimensions gobsWidth gobsHeight gobBlockHeight gobBlockDepth levelCount

/-! ### Swizzle copier model

Byte buffers are `Nat → Nat`; a copier run is a list of element moves applied
in program order. Each move reads from the run's source buffer (which the
source code never modifies during a copy) and overwrites part of the
destination buffer, exactly like the typed stores in the C++ inner loops. -/

/-- Byte buffers, as maps from byte offset to byte value. -/
abbrev Buf := Nat → Nat

/-- One element copy: `len` bytes read at offset `src` of the source buffer
and stored at offset `dst` of the destination buffer. -/
structure Move where
  dst : Nat
  src : Nat
  len : Nat
deriving DecidableEq, Repr

/-- Whether the destination range of a move contains byte `a`. -/
def Move.covers (m : Move) (a : Nat) : Prop := m.dst ≤ a ∧ a < m.dst + m.len

instance (m : Move) (a : Nat) : Decidable (m.covers a) :=
  inferInstanceAs (Decidable (And _ _))

/-- Apply one move to the destination buffer. -/
def applyMove (source : Buf) (b : Buf) (m : Move) : Buf :=
  fun a => if m.covers a then source (m.src + (a - m.dst)) else b a

/-- Apply a list of moves in order. -/
def applyMoves (source : Buf) (ms : List Move) (b : Buf) : Buf :=
  ms.foldl (applyMove source) b

/-- The bpb values handled by the copy dispatch `switch` in layout.cpp; any
other (post-coalescing) value falls through without copying. -/
def supportedBpb (b : Nat) : Bool :=
  b == 1 || b == 2 || b == 4 || b == 8 || b == 12 || b == 16

/-- Width-coalescing loop of the authoritative `CopyBlockLinearInternal`
(layout.cpp lines 112-119): while `formatBpb != 16`, if `textureWidthBytes`
is aligned to `formatBpb << 1`, halve the width and double the bpb. The
C++ `while` is modelled with explicit fuel; fuel 5 reproduces the loop for
every bpb whose iterates can reach the copy dispatch, since the bpb doubles
at each step and the loop stops at 16. -/
def coalesceWidthAux (textureWidthBytes : Nat) : Nat → Nat → Nat → Nat × Nat
  | 0, textureWidth, formatBpb => (textureWidth, formatBpb)
  | Nat.succ fuel, textureWidth, formatBpb =>
    if formatBpb = 16 then (textureWidth, formatBpb)
    else if isAligned textureWidthBytes (formatBpb <<< 1) then
      coalesceWidthAux textureWidthBytes fuel (textureWidth / 2) (formatBpb <<< 1)
    else (textureWidth, formatBpb)

/-- Width coalescing of the authoritative `CopyBlockLinearInternal`,
including the `formatBpb != 12` guard (layout.cpp lines 111-120). -/
def coalesceWidth (textureWidth formatBpb textureWidthBytes : Nat) : Nat × Nat :=
  if formatBpb = 12 then (textureWidth, formatBpb)
  else coalesceWidthAux textureWidthBytes 5 textureWidth formatBpb

/-- Width-coalescing loop of the older copy of the file (part_001 lines
112-119), which tests alignment of the current `textureWidth` instead of
`textureWidthBytes`. -/
def coalesceWidthOldAux : Nat → Nat → Nat → Nat × Nat
  | 0, textureWidth, formatBpb => (textureWidth, formatBpb)
  | Nat.succ fuel, textureWidth, formatBpb =>
    if formatBpb = 16 then (textureWidth, formatBpb)
    else if isAligned textureWidth (formatBpb <<< 1) then
      coalesceWidthOldAux fuel (textureWidth / 2) (formatBpb <<< 1)
    else (textureWidth, formatBpb)

/-- Width coalescing of the older `CopyBlockLinearInternal` (part_001 lines
111-120). -/
def coalesceWidthOld (textureWidth formatBpb : Nat) : Nat × Nat :=
  if formatBpb = 12 then (textureWidth, formatBpb)
  else coalesceWidthOldAux 5 textureWidth formatBpb

/-- Width-coalescing loop of `CopyBlockLinearSubrectInternal` (layout.cpp
lines 211-220): both `pitchTextureWidthBytes - startingBlockXBytes` and
`startingBlockXBytes` must be aligned. The C++ subtraction is on `size_t`,
so it is modelled with an explicit wrap modulo `2 ^ 64`. -/
def coalesceSubrectAux (pitchTextureWidthBytes startingBlockXBytes : Nat) :
    Nat → Nat → Nat → Nat × Nat
  | 0, pitchTextureWidth, formatBpb => (pitchTextureWidth, formatBpb)
  | Nat.succ fuel, pitchTextureWidth, formatBpb =>
    if formatBpb = 16 then (pitchTextureWidth, formatBpb)
    else if isAligned ((pitchTextureWidthBytes + 2 ^ 64 - startingBlockXBytes) % 2 ^ 64)
          (formatBpb <<< 1)
        && isAligned startingBlockXBytes (formatBpb <<< 1) then
      coalesceSubrectAux pitchTextureWidthBytes startingBlockXBytes fuel
        (pitchTextureWidth / 2) (formatBpb <<< 1)
    else (pitchTextureWidth, formatBpb)

/-- Width coalescing of `CopyBlockLinearSubrectInternal`, including the
`formatBpb != 12` guard (layout.cpp lines 210-221). -/
def coalesceSubrect (pitchTextureWidth formatBpb pitchTextureWidthBytes
    startingBlockXBytes : Nat) : Nat × Nat :=
  if formatBpb = 12 then (pitchTextureWidth, formatBpb)
  else coalesceSubrectAux pitchTextureWidthBytes startingBlockXBytes 5
    pitchTextureWidth formatBpb

/-- One element copy of the block-linear copier loops. The swizzled offset is
exactly the source's `robOffset + GobYOffset + blockOffset + GobXOffset`
(layout.cpp lines 136-153 and 239-255), with the per-slice pointer advance
`blockLinear += GobHeight * GobWidth * gobBlockHeight` folded in as
`slice * (GobHeight * GobWidth * gobBlockHeight)` and the per-line pitch
pointer advance folded in as `(slice * textureHeight + line) * pitchBytes`.
The full-surface copier is the `originXBytes = originYOffset = 0` case; the
subrect copier passes its origin offsets (layout.cpp lines 239-251). -/
def blElementMove (blockLinearToPitch : Bool)
    (textureHeight formatBpb pitchBytes originXBytes originYOffset : Nat)
    (textureWidthAlignedBytes alignedDepth gobBlockHeight : Nat)
    (slice line pixel : Nat) : Move :=
  let robHeight := gobBlockHeight * GobHeight
  let blockSize := robHeight * GobWidth * alignedDepth
  let yy := originYOffset + line
  let robOffset := textureWidthAlignedBytes * alignDown yy robHeight * alignedDepth
  let blockHeight := (yy &&& (robHeight - 1)) / GobHeight
  let gobYOffset := blockHeight * GobWidth * GobHeight
    + (((yy &&& 0x7) >>> 1) <<< 6) + ((yy &&& 0x1) <<< 4)
  let xBytes := originXBytes + pixel * formatBpb
  let blockOffset := xBytes / GobWidth * blockSize
  let gobXOffset := (((xBytes &&& 0x3F) >>> 5) <<< 8) + (xBytes &&& 0xF)
    + (((xBytes &&& 0x1F) >>> 4) <<< 5)
  let swizzledOffset := slice * (GobHeight * GobWidth * gobBlockHeight)
    + robOffset + gobYOffset + blockOffset + gobXOffset
  let pitchOffset := (slice * textureHeight + line) * pitchBytes + pixel * formatBpb
  if blockLinearToPitch then ⟨pitchOffset, swizzledOffset, formatBpb⟩
  else ⟨swizzledOffset, pitchOffset, formatBpb⟩

/-- The element moves of the three nested copier loops
(slice, then line, then pixel), in program order. -/
def blSurfaceMoves (blockLinearToPitch : Bool)
    (depth textureHeight textureWidth : Nat)
    (formatBpb pitchBytes originXBytes originYOffset : Nat)
    (textureWidthAlignedBytes alignedDepth gobBlockHeight : Nat) : List Move :=
  (List.range depth).flatMap fun slice =>
    (List.range textureHeight).flatMap fun line =>
      (List.range textureWidth).map fun pixel =>
        blElementMove blockLinearToPitch textureHeight formatBpb pitchBytes
          originXBytes originYOffset textureWidthAlignedBytes alignedDepth
          gobBlockHeight slice line pixel

/-- `CopyBlockLinearInternal` from the authoritative layout.cpp (lines
102-190). Returns the destination buffer: `pitch` when `blockLinearToPitch`,
`blockLinear` otherwise; the dispatch `switch` copies nothing when the
post-coalescing bpb matches no case. -/
def CopyBlockLinearInternal (blockLinearToPitch : Bool) (dimensions : Dimensions)
    (formatBlockWidth formatBlockHeight formatBpb pitchAmount : Nat)
    (gobBlockHeight gobBlockDepth : Nat)
    (blockLinear pitch : Buf) : Buf :=
  let textureWidth := divideCeil dimensions.width formatBlockWidth
  let textureWidthBytes := textureWidth * formatBpb
  let textureWidthAlignedBytes := alignUp textureWidthBytes GobWidth
  let c := coalesceWidth textureWidth formatBpb textureWidthBytes
  let textureHeight := divideCeil dimensions.height formatBlockHeight
  let alignedDepth := alignUp dimensions.depth gobBlockDepth
  let pitchBytes := if pitchAmount ≠ 0 then pitchAmount else textureWidthBytes
  let moves := blSurfaceMoves blockLinearToPitch dimensions.depth textureHeight c.1
    c.2 pitchBytes 0 0 textureWidthAlignedBytes alignedDepth gobBlockHeight
  if supportedBpb c.2 then
    if blockLinearToPitch then applyMoves blockLinear moves pitch
    else applyMoves pitch moves blockLinear
  else if blockLinearToPitch then pitch else blockLinear

/-- `CopyBlockLinearInternal` from the older copy of the file (part_001 lines
102-190); identical except for the coalescing condition. -/
def CopyBlockLinearInternalOld (blockLinearToPitch : Bool) (dimensions : Dimensions)
    (formatBlockWidth formatBlockHeight formatBpb pitchAmount : Nat)
    (gobBlockHeight gobBlockDepth : Nat)
    (blockLinear pitch : Buf) : Buf :=
  let textureWidth := divideCeil dimensions.width formatBlockWidth
  let textureWidthBytes := textureWidth * formatBpb
  let textureWidthAlignedBytes := alignUp textureWidthBytes GobWidth
  let c := coalesceWidthOld textureWidth formatBpb
  let textureHeight := divideCeil dimensions.height formatBlockHeight
  let alignedDepth := alignUp dimensions.depth gobBlockDepth
  let pitchBytes := if pitchAmount ≠ 0 then pitchAmount else textureWidthBytes
  let moves := blSurfaceMoves blockLinearToPitch dimensions.depth textureHeight c.1
    c.2 pitchBytes 0 0 textureWidthAlignedBytes alignedDepth gobBlockHeight
  if supportedBpb c.2 then
    if blockLinearToPitch then applyMoves blockLinear moves pitch
    else applyMoves pitch moves blockLinear
  else if blockLinearToPitch then pitch else blockLinear

/-- Modelled from the spec: the reference copier of testable property 3, which
"moves bpb bytes per element with no coalescing" — the same loops as
`CopyBlockLinearInternal` with the width-coalescing loop removed. -/
def CopyBlockLinearReference (blockLinearToPitch : Bool) (dimensions : Dimensions)
    (formatBlockWidth formatBlockHeight formatBpb pitchAmount : Nat)
    (gobBlockHeight gobBlockDepth : Nat)
    (blockLinear pitch : Buf) : Buf :=
  let textureWidth := divideCeil dimensions.width formatBlockWidth
  let textureWidthBytes := textureWidth * formatBpb
  let textureWidthAlignedBytes := alignUp textureWidthBytes GobWidth
  let textureHeight := divideCeil dimensions.height formatBlockHeight
  let alignedDepth := alignUp dimensions.depth gobBlockDepth
  let pitchBytes := if pitchAmount ≠ 0 then pitchAmount else textureWidthBytes
  let moves := blSurfaceMoves blockLinearToPitch dimensions.depth textureHeight
    textureWidth formatBpb pitchBytes 0 0 textureWidthAlignedBytes alignedDepth
    gobBlockHeight
  if supportedBpb formatBpb then
    if blockLinearToPitch then applyMoves blockLinear moves pitch
    else applyMoves pitch moves blockLinear
  else if blockLinearToPitch then pitch else blockLinear

/-- `CopyBlockLinearSubrectInternal` from the authoritative layout.cpp (lines
197-293). -/
def CopyBlockLinearSubrectInternal (blockLinearToPitch : Bool)
    (pitchDimensions blockLinearDimensions : Dimensions)
    (formatBlockWidth formatBlockHeight formatBpb pitchAmount : Nat)
    (gobBlockHeight gobBlockDepth : Nat)
    (blockLinear pitch : Buf) (originX originY : Nat) : Buf :=
  let pitchTextureWidth := divideCeil pitchDimensions.width formatBlockWidth
  let pitchTextureWidthBytes := pitchTextureWidth * formatBpb
  let blockLinearTextureWidthAlignedBytes :=
    alignUp (divideCeil blockLinearDimensions.width formatBlockWidth * formatBpb) GobWidth
  let originXBlocks := divideCeil originX formatBlockWidth
  let originXBytes := originXBlocks * formatBpb
  let startingBlockXBytes := alignUp originXBytes GobWidth - originXBytes
  let c := coalesceSubrect pitchTextureWidth formatBpb pitchTextureWidthBytes
    startingBlockXBytes
  let pitchTextureHeight := divideCeil pitchDimensions.height formatBlockHeight
  let originYOffset := divideCeil originY formatBlockHeight
  let alignedDepth := alignUp blockLinearDimensions.depth gobBlockDepth
  let pitchBytes := if pitchAmount ≠ 0 then pitchAmount else pitchTextureWidthBytes
  let moves := blSurfaceMoves blockLinearToPitch blockLinearDimensions.depth
    pitchTextureHeight c.1 c.2 pitchBytes originXBytes originYOffset
    blockLinearTextureWidthAlignedBytes alignedDepth gobBlockHeight
  if supportedBpb c.2 then
    if blockLinearToPitch then applyMoves blockLinear moves pitch
    else applyMoves pitch moves blockLinear
  else if blockLinearToPitch then pitch else blockLinear

/-- `CopyBlockLinearToPitch` wrapper (layout.cpp lines 304-314). -/
def CopyBlockLinearToPitch (dimensions : Dimensions)
    (formatBlockWidth formatBlockHeight formatBpb pitchAmount : Nat)
    (gobBlockHeight gobBlockDepth : Nat) (blockLinear pitch : Buf) : Buf :=
  CopyBlockLinearInternal true dimensions formatBlockWidth formatBlockHeight
    formatBpb pitchAmount gobBlockHeight gobBlockDepth blockLinear pitch

/-- `CopyPitchToBlockLinear` wrapper (layout.cpp lines 349-356). -/
def CopyPitchToBlockLinear (dimensions : Dimensions)
    (formatBlockWidth formatBlockHeight formatBpb pitchAmount : Nat)
    (gobBlockHeight gobBlockDepth : Nat) (pitch blockLinear : Buf) : Buf :=
  CopyBlockLinearInternal false dimensions formatBlockWidth formatBlockHeight
    formatBpb pitchAmount gobBlockHeight gobBlockDepth blockLinear pitch

/-- `CopyBlockLinearToPitchSubrect` wrapper (layout.cpp lines 316-327). -/
def CopyBlockLinearToPitchSubrect (pitchDimensions blockLinearDimensions : Dimensions)
    (formatBlockWidth formatBlockHeight formatBpb pitchAmount : Nat)
    (gobBlockHeight gobBlockDepth : Nat) (blockLinear pitch : Buf)
    (originX originY : Nat) : Buf :=
  CopyBlockLinearSubrectInternal true pitchDimensions blockLinearDimensions
    formatBlockWidth formatBlockHeight formatBpb pitchAmount
    gobBlockHeight gobBlockDepth blockLinear pitch originX originY

/-- `CopyPitchToBlockLinearSubrect` wrapper (layout.cpp lines 372-384). -/
def CopyPitchToBlockLinearSubrect (pitchDimensions blockLinearDimensions : Dimensions)
    (formatBlockWidth formatBlockHeight formatBpb pitchAmount : Nat)
    (gobBlockHeight gobBlockDepth : Nat) (pitch blockLinear : Buf)
    (originX originY : Nat) : Buf :=
  CopyBlockLinearSubrectInternal false pitchDimensions blockLinearDimensions
    formatBlockWidth formatBlockHeight formatBpb pitchAmount
    gobBlockHeight gobBlockDepth blockLinear pitch originX originY

/-- Byte-level block-linear offset in div/mod form; the bit-twiddled offsets
of `blElementMove` coincide with it for power-of-two GOB block heights. -/
def blByteOffset (textureWidthAlignedBytes alignedDepth gobBlockHeight : Nat)
    (xb y z : Nat) : Nat :=
  let robHeight := gobBlockHeight * 8
  z * (512 * gobBlockHeight)
    + textureWidthAlignedBytes * (y / robHeight * robHeight) * alignedDepth
    + y % robHeight / 8 * 512
    + y % 8 / 2 * 64 + y % 2 * 16
    + xb / 64 * (robHeight * 64 * alignedDepth)
    + xb % 64 / 32 * 256 + xb % 32 / 16 * 32 + xb % 16

/-- Inverse of `blByteOffset`: recovers `(xb, y, z)` from a byte offset. -/
def blByteDecode (textureWidthAlignedBytes alignedDepth gobBlockHeight : Nat)
    (o : Nat) : Nat × Nat × Nat :=
  let intra := o % 512
  let xbLow := intra / 256 * 32 + intra / 32 % 2 * 16 + intra % 16
  let yLow := intra / 64 % 4 * 2 + intra / 16 % 2
  let rest := o / 512
  let gobIdx := rest % (gobBlockHeight * alignedDepth)
  let blocks := rest / (gobBlockHeight * alignedDepth)
  (blocks % (textureWidthAlignedBytes / 64) * 64 + xbLow,
   blocks / (textureWidthAlignedBytes / 64) * (gobBlockHeight * 8)
     + gobIdx % gobBlockHeight * 8 + yLow,
   gobIdx / gobBlockHeight)

/-- The element move of the copier loops in div/mod form. -/
def blArithMove (blockLinearToPitch : Bool)
    (textureHeight formatBpb pitchBytes originXBytes originYOffset : Nat)
    (textureWidthAlignedBytes alignedDepth gobBlockHeight : Nat)
    (slice line pixel : Nat) : Move :=
  let sw := blByteOffset textureWidthAlignedBytes alignedDepth gobBlockHeight
    (originXBytes + pixel * formatBpb) (originYOffset + line) slice
  let po := (slice * textureHeight + line) * pitchBytes + pixel * formatBpb
  if blockLinearToPitch then ⟨po, sw, formatBpb⟩ else ⟨sw, po, formatBpb⟩

/-- Formula of spec section 4.B, written from the spec's words: the
block-linear byte offset of the texel block `(x, y, z)` (the spec's bitwise
ors of disjoint bit ranges are written as sums). -/
def specBlockLinearOffset (dimensions : Dimensions)
    (fmtBw fmtBh bpb gbh gbd : Nat) (x y z : Nat) : Nat :=
  let xb := x * bpb
  let robHeight := 8 * gbh
  let robLineBytesAligned := alignUp (divideCeil dimensions.width fmtBw * bpb) 64
  let alignedDepth := alignUp dimensions.depth gbd
  let blockX := xb / 64
  let robY := alignDown y robHeight / robHeight
  let blockZ := z / gbd
  let robBase := robY * (robLineBytesAligned * robHeight * alignedDepth)
  let blockBase := robBase + blockX * (robHeight * 64 * alignedDepth)
    + blockZ * (robHeight * 64 * gbd)
  let gobBase := blockBase + (z % gbd * gbh + y % robHeight / 8) * 512
  let intraGobY := ((y &&& 7) >>> 1) <<< 6 + (y &&& 1) <<< 4
  let intraGobX := ((xb &&& 0x3F) >>> 5) <<< 8 + ((xb &&& 0x1F) >>> 4) <<< 5
    + (xb &&& 0xF)
  gobBase + intraGobY + intraGobX

/-! ### DMA engine front-end model

The register file is modelled with the typed views the code reads; the raw
`u32` aliasing of `maxwell_dma.h` is outside the sources, so the views follow
the spec's register layout (section 6). A launch is modelled as the ordered
list of its externally observable effects. -/

/-- `Registers::LaunchDma::MemoryLayout`. -/
inductive MemoryLayout
  | BlockLinear
  | Pitch
deriving DecidableEq, Repr

/-- Modelled from the spec: the `launchDma` register fields the engine reads
(spec section 6); `semaphoreType` is the raw 2-bit field with 0 = none,
1 = `ReleaseOneWordSemaphore`, 2 = `ReleaseFourWordSemaphore`. -/
structure LaunchDmaReg where
  remapEnable : Bool
  multiLineEnable : Bool
  srcMemoryLayout : MemoryLayout
  dstMemoryLayout : MemoryLayout
  reductionEnable : Bool
  semaphoreType : Nat
deriving DecidableEq, Repr

/-- Raw 4-bit log2 block size fields of a surface register. -/
structure BlockSizeReg where
  width : Nat
  height : Nat
  depth : Nat
deriving DecidableEq, Repr

/-- Modelled from the spec: the `blockSize` fields are log2 values, so the
accessor returns `2 ^ raw` GOBs. -/
def BlockSizeReg.Width (b : BlockSizeReg) : Nat := 2 ^ b.width

/-- Decoded block height in GOBs. -/
def BlockSizeReg.Height (b : BlockSizeReg) : Nat := 2 ^ b.height

/-- Decoded block depth in GOBs. -/
def BlockSizeReg.Depth (b : BlockSizeReg) : Nat := 2 ^ b.depth

/-- A `srcSurface`/`dstSurface` register block (spec section 6). -/
structure SurfaceReg where
  blockSize : BlockSizeReg
  width : Nat
  height : Nat
  depth : Nat
  layer : Nat
  originX : Nat
  originY : Nat
deriving DecidableEq, Repr

/-- The semaphore register pair. -/
structure SemaphoreReg where
  address : Nat
  payload : Nat
deriving DecidableEq, Repr

/-- The register fields of `MaxwellDma::Registers` that the launch handler
reads. -/
structure Registers where
  launchDma : LaunchDmaReg
  offsetIn : Nat
  offsetOut : Nat
  pitchIn : Nat
  pitchOut : Nat
  lineLengthIn : Nat
  lineCount : Nat
  srcSurface : SurfaceReg
  dstSurface : SurfaceReg
  semaphore : SemaphoreReg
deriving DecidableEq, Repr

/-- Externally observable effects of a launch: `executor.Submit()`,
`interconnect.Copy`, calls into the texture copier, `gmmu.Write`, and log
output (whose numeric arguments are retained). -/
inductive Event
  | submit
  | interconnectCopy (dst src size : Nat)
  | texCopyBlockLinearToPitch (dstDims srcDims : Dimensions)
      (pitchAmount gbh gbd srcPtr dstPtr originX originY : Nat) (subrect : Bool)
  | texCopyPitchToBlockLinear (srcDims dstDims : Dimensions)
      (pitchAmount gbh gbd srcPtr dstPtr originX originY : Nat) (subrect : Bool)
  | mmuWrite (address value : Nat)
  | logMessage (values : List Nat)
deriving DecidableEq, Repr

/-- Whether an event is a `gmmu.Write`. -/
def Event.isMmuWrite : Event → Bool
  | .mmuWrite _ _ => true
  | _ => false

/-- Whether an event transfers bytes (an interconnect copy or a call into the
texture copier). -/
def Event.isCopy : Event → Bool
  | .interconnectCopy _ _ _ => true
  | .texCopyBlockLinearToPitch _ _ _ _ _ _ _ _ _ _ => true
  | .texCopyPitchToBlockLinear _ _ _ _ _ _ _ _ _ _ => true
  | _ => false

/-- Whether an event is log output. -/
def Event.isLog : Event → Bool
  | .logMessage _ => true
  | _ => false

/-- `MaxwellDma::ReleaseSemaphore` (maxwell_dma.cpp lines 164-186): the
reduction warning, then the semaphore-type switch; the four-word release
writes the timestamp at `address + 8` before the payload at `address`. -/
def ReleaseSemaphore (regs : Registers) (timestamp : Nat) : List Event :=
  (if regs.launchDma.reductionEnable then [Event.logMessage []] else [])
    ++ (if regs.launchDma.semaphoreType = 1 then
          [Event.mmuWrite regs.semaphore.address regs.semaphore.payload,
           Event.logMessage [regs.semaphore.address, regs.semaphore.payload]]
        else if regs.launchDma.semaphoreType = 2 then
          [Event.mmuWrite (regs.semaphore.address + 8) timestamp,
           Event.mmuWrite regs.semaphore.address regs.semaphore.payload,
           Event.logMessage [regs.semaphore.address, regs.semaphore.payload, timestamp]]
        else [])

/-- `MaxwellDma::CopyBlockLinearToPitch` (maxwell_dma.cpp lines 74-117);
`translate` models `gmmu.TranslateRange` as the list of host mappings and u32
arithmetic wraps modulo `2 ^ 32`. -/
def MaxwellCopyBlockLinearToPitch (regs : Registers)
    (translate : Nat → Nat → List Nat) : List Event :=
  if regs.srcSurface.blockSize.Width ≠ 1 then
    [Event.logMessage [regs.srcSurface.blockSize.Width]]
  else
    let srcDimensions : Dimensions :=
      ⟨regs.srcSurface.width, regs.srcSurface.height, regs.srcSurface.depth⟩
    let srcLayerStride := GetBlockLinearLayerSize srcDimensions 1 1 1
      regs.srcSurface.blockSize.Height regs.srcSurface.blockSize.Depth
    let srcLayerAddress := regs.offsetIn + regs.srcSurface.layer * srcLayerStride
    let srcMappings := translate regs.offsetIn srcLayerStride
    let dstDimensions : Dimensions :=
      ⟨regs.lineLengthIn, regs.lineCount, regs.srcSurface.depth⟩
    let dstSize := regs.pitchOut * dstDimensions.height * dstDimensions.depth % 2 ^ 32
    let dstMappings := translate regs.offsetOut dstSize
    if srcMappings.length ≠ 1 ∨ dstMappings.length ≠ 1 then
      [Event.logMessage []]
    else
      Event.logMessage [srcDimensions.width, srcDimensions.height, srcLayerAddress,
          dstDimensions.width, dstDimensions.height, regs.offsetOut]
        :: (if alignDown srcDimensions.width 64 ≠ alignDown dstDimensions.width 64
              ∨ regs.srcSurface.originX ≠ 0 ∨ regs.srcSurface.originY ≠ 0 then
            [Event.texCopyBlockLinearToPitch dstDimensions srcDimensions
              regs.pitchOut regs.srcSurface.blockSize.Height
              regs.srcSurface.blockSize.Depth (srcMappings.headD 0)
              (dstMappings.headD 0) regs.srcSurface.originX regs.srcSurface.originY
              true]
          else
            [Event.texCopyBlockLinearToPitch dstDimensions srcDimensions
              regs.pitchOut regs.srcSurface.blockSize.Height
              regs.srcSurface.blockSize.Depth (srcMappings.headD 0)
              (dstMappings.headD 0) 0 0 false])

/-- `MaxwellDma::CopyPitchToBlockLinear` (maxwell_dma.cpp lines 119-162). -/
def MaxwellCopyPitchToBlockLinear (regs : Registers)
    (translate : Nat → Nat → List Nat) : List Event :=
  if regs.dstSurface.blockSize.Width ≠ 1 then
    [Event.logMessage [regs.srcSurface.blockSize.Width]]
  else
    let srcDimensions : Dimensions :=
      ⟨regs.lineLengthIn, regs.lineCount, regs.dstSurface.depth⟩
    let srcSize := regs.pitchIn * srcDimensions.height * srcDimensions.depth % 2 ^ 32
    let srcMappings := translate regs.offsetIn srcSize
    let dstDimensions : Dimensions :=
      ⟨regs.dstSurface.width, regs.dstSurface.height, regs.dstSurface.depth⟩
    let dstLayerStride := GetBlockLinearLayerSize dstDimensions 1 1 1
      regs.dstSurface.blockSize.Height regs.dstSurface.blockSize.Depth
    let dstLayerAddress := regs.offsetOut + regs.dstSurface.layer * dstLayerStride
    let dstMappings := translate regs.offsetOut dstLayerStride
    if srcMappings.length ≠ 1 ∨ dstMappings.length ≠ 1 then
      [Event.logMessage []]
    else
      Event.logMessage [srcDimensions.width, srcDimensions.height, regs.offsetIn,
          dstDimensions.width, dstDimensions.height, dstLayerAddress]
        :: (if alignDown srcDimensions.width 64 ≠ alignDown dstDimensions.width 64
              ∨ regs.dstSurface.originX ≠ 0 ∨ regs.dstSurface.originY ≠ 0 then
            [Event.texCopyPitchToBlockLinear srcDimensions dstDimensions
              regs.pitchIn regs.dstSurface.blockSize.Height
              regs.dstSurface.blockSize.Depth (srcMappings.headD 0)
              (dstMappings.headD 0) regs.dstSurface.originX regs.dstSurface.originY
              true]
          else
            [Event.texCopyPitchToBlockLinear srcDimensions dstDimensions
              regs.pitchIn regs.dstSurface.blockSize.Height
              regs.dstSurface.blockSize.Depth (srcMappings.headD 0)
              (dstMappings.headD 0) 0 0 false])

/-- Row loop of the strided pitch-to-pitch copy (maxwell_dma.cpp line 52). -/
def pitchRowCopies (regs : Registers) : Nat → Nat → Nat → List Event
  | 0, _, _ => []
  | Nat.succ linesToCopy, srcCopyOffset, dstCopyOffset =>
    Event.interconnectCopy (regs.offsetOut + dstCopyOffset)
        (regs.offsetIn + srcCopyOffset) regs.lineLengthIn
      :: pitchRowCopies regs linesToCopy (srcCopyOffset + regs.pitchIn)
          (dstCopyOffset + regs.pitchOut)

/-- `MaxwellDma::DmaCopy` (maxwell_dma.cpp lines 41-72). -/
def DmaCopy (regs : Registers) (translate : Nat → Nat → List Nat) : List Event :=
  if regs.launchDma.multiLineEnable then
    Event.submit
      :: (if regs.launchDma.srcMemoryLayout = regs.launchDma.dstMemoryLayout then
            if regs.launchDma.srcMemoryLayout = MemoryLayout.Pitch then
              if regs.pitchIn = regs.pitchOut ∧ regs.pitchIn = regs.lineLengthIn then
                [Event.interconnectCopy regs.offsetOut regs.offsetIn
                  (regs.lineLengthIn * regs.lineCount % 2 ^ 32)]
              else
                pitchRowCopies regs regs.lineCount 0 0
            else
              [Event.logMessage []]
          else if regs.launchDma.srcMemoryLayout = MemoryLayout.BlockLinear then
            MaxwellCopyBlockLinearToPitch regs translate
          else
            MaxwellCopyPitchToBlockLinear regs translate)
  else
    [Event.logMessage [regs.offsetIn, regs.offsetOut, regs.lineLengthIn],
     Event.interconnectCopy regs.offsetOut regs.offsetIn regs.lineLengthIn]

/-- `MaxwellDma::LaunchDma` (maxwell_dma.cpp lines 32-39): skip the copy when
remapping is enabled, then always release the semaphore. -/
def LaunchDma (regs : Registers) (translate : Nat → Nat → List Nat)
    (timestamp : Nat) : List Event :=
  (if regs.launchDma.remapEnable then [Event.logMessage []]
   else DmaCopy regs translate)
    ++ ReleaseSemaphore regs timestamp

/-- State-and-trace form of a launch: `LaunchDma` reads but never writes the
register file, so the post-launch register state is the input state. -/
def LaunchDmaS (regs : Registers) (translate : Nat → Nat → List Nat)
    (timestamp : Nat) : Registers × List Event :=
  (regs, LaunchDma regs translate timestamp)

/-- A register state with both surface `layer` fields replaced. -/
def withLayers (regs : Registers) (srcLayer dstLayer : Nat) : Registers :=
  { regs with
    srcSurface := { regs.srcSurface with layer := srcLayer }
    dstSurface := { regs.dstSurface with layer := dstLayer } }

/-! ### Theorems -/

/-- Alignment never decreases a value (for a positive alignment). -/
theorem le_alignUp (a b : Nat) (hb : 0 < b) : a ≤ alignUp a b := by
  unfold alignUp divideCeil
  rw [Nat.mul_comm]
  have h := Nat.div_add_mod (a + b - 1) b
  have h2 : (a + b - 1) % b < b := Nat.mod_lt _ hb
  omega

/-- The result of `alignUp` is a multiple of the alignment. -/
theorem dvd_alignUp (a b : Nat) : b ∣ alignUp a b :=
  Dvd.intro_left _ rfl

/-- `isAligned` decides divisibility. -/
theorem isAligned_iff (a b : Nat) : isAligned a b = true ↔ b ∣ a := by
  unfold isAligned
  rw [beq_iff_eq, Nat.dvd_iff_mod_eq_zero]

/-- Folding a list of moves over an append splits into two folds. -/
theorem applyMoves_append (s : Buf) (l1 l2 : List Move) (b : Buf) :
    applyMoves s (l1 ++ l2) b = applyMoves s l2 (applyMoves s l1 b) :=
  List.foldl_append _ _ _ _

/-- A byte covered by no move of the list is left unchanged. -/
theorem applyMoves_notCovered (s : Buf) (ms : List Move) (a : Nat)
    (h : ∀ m ∈ ms, ¬ m.covers a) : ∀ b : Buf, applyMoves s ms b a = b a := by
  induction ms with
  | nil => intro b; rfl
  | cons m ms ih =>
    intro b
    have hstep : applyMoves s (m :: ms) b = applyMoves s ms (applyMove s b m) :=
      rfl
    rw [hstep, ih (fun m' hm' => h m' (List.mem_cons_of_mem m hm'))]
    unfold applyMove
    rw [if_neg (h m (List.mem_cons_self m ms))]

/-- Evaluation of a pixel loop (a mapped range of moves) at a byte covered by
the move of index `i` and by no later move. -/
theorem applyMoves_range_map_eval (s : Buf) (f : Nat → Move) (n i a : Nat)
    (hi : i < n) (hcov : (f i).covers a)
    (hlater : ∀ j, i < j → j < n → ¬ (f j).covers a) :
    ∀ b : Buf, applyMoves s ((List.range n).map f) b a
      = s ((f i).src + (a - (f i).dst)) := by
  induction n with
  | zero => omega
  | succ n ih =>
    intro b
    rw [List.range_succ, List.map_append, applyMoves_append]
    rcases Nat.lt_succ_iff_lt_or_eq.mp hi with hi' | rfl
    · have hnc : ¬ (f n).covers a := hlater n hi' (Nat.lt_succ_self n)
      show applyMove s _ (f n) a = _
      unfold applyMove
      rw [if_neg hnc]
      exact ih hi' (fun j h1 h2 => hlater j h1 (Nat.lt_succ_of_lt h2)) _
    · show applyMove s _ (f i) a = _
      unfold applyMove
      rw [if_pos hcov]

/-- Evaluation of an outer loop (a flat-mapped range of move lists) at a byte
untouched by every later iteration, when iteration `i` writes value `v` at it
regardless of the incoming buffer. -/
theorem applyMoves_range_flatMap_eval (s : Buf) (g : Nat → List Move) (n i a v : Nat)
    (hi : i < n)
    (hlater : ∀ j, i < j → j < n → ∀ m ∈ g j, ¬ m.covers a)
    (hval : ∀ b : Buf, applyMoves s (g i) b a = v) :
    ∀ b : Buf, applyMoves s ((List.range n).flatMap g) b a = v := by
  induction n with
  | zero => omega
  | succ n ih =>
    intro b
    rw [List.range_succ, List.flatMap_append, applyMoves_append]
    simp only [List.flatMap_cons, List.flatMap_nil, List.append_nil]
    rcases Nat.lt_succ_iff_lt_or_eq.mp hi with hi' | rfl
    · rw [applyMoves_notCovered s _ a (hlater n hi' (Nat.lt_succ_self n))]
      exact ih hi' (fun j h1 h2 => hlater j h1 (Nat.lt_succ_of_lt h2)) _
    · exact hval _

/-- Masking with a power of two minus one is a remainder; specialisation of
the library lemma to the `robHeight - 1` mask with `robHeight = 2 ^ k * 8`. -/
theorem land_pow_mul_eight_sub_one (n k : Nat) :
    n &&& (2 ^ k * 8 - 1) = n % (2 ^ k * 8) := by
  have h8 : (2 : Nat) ^ k * 8 = 2 ^ (k + 3) := by
    rw [pow_add]; norm_num
  rw [h8]
  exact Nat.and_pow_two_sub_one_eq_mod n (k + 3)

/-- Mask by 1 is remainder mod 2. -/
theorem land_one_eq (n : Nat) : n &&& 1 = n % 2 :=
  Nat.and_one_is_mod n

/-- Mask by 7 is remainder mod 8. -/
theorem land_seven_eq (n : Nat) : n &&& 7 = n % 8 := by
  have h := Nat.and_pow_two_sub_one_eq_mod n 3
  norm_num at h
  exact h

/-- Mask by 0xF is remainder mod 16. -/
theorem land_fifteen_eq (n : Nat) : n &&& 15 = n % 16 := by
  have h := Nat.and_pow_two_sub_one_eq_mod n 4
  norm_num at h
  exact h

/-- Mask by 0x1F is remainder mod 32. -/
theorem land_thirtyone_eq (n : Nat) : n &&& 31 = n % 32 := by
  have h := Nat.and_pow_two_sub_one_eq_mod n 5
  norm_num at h
  exact h

/-- Mask by 0x3F is remainder mod 64. -/
theorem land_sixtythree_eq (n : Nat) : n &&& 63 = n % 64 := by
  have h := Nat.and_pow_two_sub_one_eq_mod n 6
  norm_num at h
  exact h

/-- The bit-twiddled move of the copier loops equals its div/mod form for
power-of-two GOB block heights. -/
theorem blElementMove_eq_arith (dir : Bool)
    (H bpb pB oxB oyOff wA AD gbh : Nat) (hgh : ∃ k, gbh = 2 ^ k)
    (z l x : Nat) :
    blElementMove dir H bpb pB oxB oyOff wA AD gbh z l x
      = blArithMove dir H bpb pB oxB oyOff wA AD gbh z l x := by
  obtain ⟨k, rfl⟩ := hgh
  simp only [blElementMove, blArithMove, blByteOffset, alignDown, GobWidth, GobHeight]
  have hsw :
      z * (8 * 64 * 2 ^ k)
        + wA * ((oyOff + l) / (2 ^ k * 8) * (2 ^ k * 8)) * AD
        + (((oyOff + l) &&& (2 ^ k * 8 - 1)) / 8 * 64 * 8
          + ((((oyOff + l) &&& 0x7) >>> 1) <<< 6) + (((oyOff + l) &&& 0x1) <<< 4))
        + (oxB + x * bpb) / 64 * (2 ^ k * 8 * 64 * AD)
        + ((((oxB + x * bpb) &&& 0x3F) >>> 5) <<< 8 + ((oxB + x * bpb) &&& 0xF)
          + ((((oxB + x * bpb) &&& 0x1F) >>> 4) <<< 5))
      = z * (512 * 2 ^ k)
        + wA * ((oyOff + l) / (2 ^ k * 8) * (2 ^ k * 8)) * AD
        + (oyOff + l) % (2 ^ k * 8) / 8 * 512
        + (oyOff + l) % 8 / 2 * 64 + (oyOff + l) % 2 * 16
        + (oxB + x * bpb) / 64 * (2 ^ k * 8 * 64 * AD)
        + (oxB + x * bpb) % 64 / 32 * 256 + (oxB + x * bpb) % 32 / 16 * 32
        + (oxB + x * bpb) % 16 := by
    rw [land_pow_mul_eight_sub_one, land_one_eq, land_seven_eq, land_fifteen_eq,
      land_thirtyone_eq, land_sixtythree_eq]
    simp only [Nat.shiftRight_eq_div_pow, Nat.shiftLeft_eq]
    norm_num
    ring
  rw [hsw]

/-- Adding an offset below `bpb` to a multiple of `bpb` does not cross a
multiple-of-`c` boundary when `bpb` divides `c`. -/
theorem chunk_div_mod (bpb c u j : Nat) (hc : 0 < c) (hbc : bpb ∣ c)
    (hu : bpb ∣ u) (hj : j < bpb) :
    (u + j) / c = u / c ∧ (u + j) % c = u % c + j := by
  have h1 : bpb ∣ u % c := (Nat.dvd_mod_iff hbc).mpr hu
  have h2 : u % c < c := Nat.mod_lt _ hc
  have h3 : u % c + bpb ≤ c := by
    rcases h1 with ⟨q, hq⟩
    rcases hbc with ⟨r, hr⟩
    have hbpb : 0 < bpb := by omega
    have hqr : q < r := by
      by_contra h
      push_neg at h
      have := mul_le_mul_left' h bpb
      omega
    calc u % c + bpb = bpb * (q + 1) := by rw [hq]; ring
    _ ≤ bpb * r := mul_le_mul_left' hqr bpb
    _ = c := hr.symm
  have hd := Nat.div_add_mod u c
  have hrepr : u + j = c * (u / c) + (u % c + j) := by omega
  have h4 : u % c + j < c := lt_of_lt_of_le (Nat.add_lt_add_left hj _) h3
  constructor
  · rw [hrepr, Nat.mul_add_div hc,
      show (u % c + j) / c = 0 from Nat.div_eq_of_lt h4, Nat.add_zero]
  · rw [hrepr, Nat.mul_add_mod]
    exact Nat.mod_eq_of_lt h4

/-- Contiguity: within a 16-byte-aligned chunk whose size divides 16, the
block-linear byte offsets are consecutive. -/
theorem blByteOffset_add (wA AD gbh xb j bpb y z : Nat)
    (hdvd : bpb ∣ 16) (hu : bpb ∣ xb) (hj : j < bpb) :
    blByteOffset wA AD gbh (xb + j) y z = blByteOffset wA AD gbh xb y z + j := by
  have hd64 : bpb ∣ 64 := hdvd.trans (by norm_num)
  have hd32 : bpb ∣ 32 := hdvd.trans (by norm_num)
  have h64 := chunk_div_mod bpb 64 xb j (by norm_num) hd64 hu hj
  have h32 := chunk_div_mod bpb 32 xb j (by norm_num) hd32 hu hj
  have h16 := chunk_div_mod bpb 16 xb j (by norm_num) hdvd hu hj
  have hu64 : bpb ∣ xb % 64 := (Nat.dvd_mod_iff hd64).mpr hu
  have hu32 : bpb ∣ xb % 32 := (Nat.dvd_mod_iff hd32).mpr hu
  have h6432 := chunk_div_mod bpb 32 (xb % 64) j (by norm_num) hd32 hu64 hj
  have h3216 := chunk_div_mod bpb 16 (xb % 32) j (by norm_num) hdvd hu32 hj
  simp only [blByteOffset]
  rw [h64.1, h64.2, h32.2, h16.2, h6432.1, h3216.1]
  ring

/-- Decoding inverts the byte-level block-linear offset on in-range
coordinates. -/
theorem blByteDecode_offset (wA AD gbh : Nat) (xb y z : Nat)
    (h64 : 64 ∣ wA) (hgbh : 0 < gbh) (hxb : xb < wA) (hz : z < AD) :
    blByteDecode wA AD gbh (blByteOffset wA AD gbh xb y z) = (xb, y, z) := by
  obtain ⟨t, rfl⟩ := h64
  have ht : 0 < t := by omega
  have hrh : 0 < gbh * 8 := by positivity
  set rh := gbh * 8 with hrhdef
  set gobY := y % rh / 8 with hgobY
  set intra := y % 8 / 2 * 64 + y % 2 * 16 + xb % 64 / 32 * 256
    + xb % 32 / 16 * 32 + xb % 16 with hintra
  set A := z * gbh + gobY with hA
  set B := y / rh * t + xb / 64 with hB
  have hsigma : blByteOffset (64 * t) AD gbh xb y z
      = intra + 512 * (A + gbh * AD * B) := by
    simp only [blByteOffset, hintra, hA, hB, hgobY, ← hrhdef]
    ring
  have hintra_lt : intra < 512 := by omega
  have hgobY_lt : gobY < gbh := by
    have h1 : y % rh < rh := Nat.mod_lt _ hrh
    rw [hgobY]
    exact (Nat.div_lt_iff_lt_mul (by norm_num)).mpr (by omega)
  have hAD : 0 < AD := by omega
  have hA_lt : A < gbh * AD := by
    calc A = z * gbh + gobY := rfl
    _ < z * gbh + gbh := by omega
    _ = (z + 1) * gbh := by ring
    _ ≤ AD * gbh := mul_le_mul_right' (by omega) gbh
    _ = gbh * AD := Nat.mul_comm _ _
  have hxb64 : xb / 64 < t := (Nat.div_lt_iff_lt_mul (by norm_num)).mpr (by omega)
  have hgAD : 0 < gbh * AD := Nat.mul_pos hgbh hAD
  have h1 : (intra + 512 * (A + gbh * AD * B)) % 512 = intra := by
    rw [Nat.add_mul_mod_self_left]
    exact Nat.mod_eq_of_lt hintra_lt
  have h2 : (intra + 512 * (A + gbh * AD * B)) / 512 = A + gbh * AD * B := by
    rw [Nat.add_mul_div_left _ _ (by norm_num : (0:Nat) < 512),
      Nat.div_eq_of_lt hintra_lt, Nat.zero_add]
  have h3 : (A + gbh * AD * B) % (gbh * AD) = A := by
    rw [Nat.add_mul_mod_self_left]
    exact Nat.mod_eq_of_lt hA_lt
  have h4 : (A + gbh * AD * B) / (gbh * AD) = B := by
    rw [Nat.add_mul_div_left _ _ hgAD, Nat.div_eq_of_lt hA_lt, Nat.zero_add]
  have h5 : A % gbh = gobY := by
    rw [hA, show z * gbh = gbh * z from Nat.mul_comm _ _, Nat.mul_add_mod]
    exact Nat.mod_eq_of_lt hgobY_lt
  have h6 : A / gbh = z := by
    rw [hA, show z * gbh = gbh * z from Nat.mul_comm _ _, Nat.mul_add_div hgbh,
      Nat.div_eq_of_lt hgobY_lt, Nat.add_zero]
  have h7 : B % t = xb / 64 := by
    rw [hB, show y / rh * t = t * (y / rh) from Nat.mul_comm _ _, Nat.mul_add_mod]
    exact Nat.mod_eq_of_lt hxb64
  have h8 : B / t = y / rh := by
    rw [hB, show y / rh * t = t * (y / rh) from Nat.mul_comm _ _,
      Nat.mul_add_div ht, Nat.div_eq_of_lt hxb64, Nat.add_zero]
  have ht64 : 64 * t / 64 = t := Nat.mul_div_cancel_left t (by norm_num)
  simp only [blByteDecode, hsigma, h1, h2, h3, h4, ht64, h5, h6, h7, h8, ← hrhdef,
    Prod.mk.injEq]
  refine ⟨?_, ?_, trivial⟩
  · omega
  · have hy1 := Nat.div_add_mod y rh
    rw [Nat.mul_comm] at hy1
    have hy2 := Nat.div_add_mod (y % rh) 8
    have hy3 : y % rh % 8 = y % 8 :=
      Nat.mod_mod_of_dvd y (Dvd.intro_left gbh rfl)
    omega
/-- Doubling a proper divisor of 16 still divides 16. -/
theorem dvd16_double (b : Nat) (hb : b ∣ 16) (hne : b ≠ 16) : 2 * b ∣ 16 := by
  have hle : b ≤ 16 := Nat.le_of_dvd (by norm_num) hb
  revert hb hne
  interval_cases b <;> decide

/-- Every positive divisor of 16 is handled by the copy dispatch. -/
theorem supportedBpb_of_dvd16 (b : Nat) (hb : b ∣ 16) (hpos : 0 < b) :
    supportedBpb b = true := by
  have hle : b ≤ 16 := Nat.le_of_dvd (by norm_num) hb
  revert hb hpos
  interval_cases b <;> decide

/-- No divisor of 16 equals 12. -/
theorem ne_twelve_of_dvd16 (b : Nat) (hb : b ∣ 16) : b ≠ 12 := by
  have hle : b ≤ 16 := Nat.le_of_dvd (by norm_num) hb
  revert hb
  interval_cases b <;> decide

/-- Invariants of the full-surface coalescing loop: the width-bytes product
is preserved and the bpb stays a positive divisor of 16. -/
theorem coalesceWidthAux_inv (WB : Nat) :
    ∀ (fuel w bpb : Nat), 0 < bpb → w * bpb = WB → bpb ∣ 16 →
      (coalesceWidthAux WB fuel w bpb).1 * (coalesceWidthAux WB fuel w bpb).2 = WB
        ∧ (coalesceWidthAux WB fuel w bpb).2 ∣ 16
        ∧ 0 < (coalesceWidthAux WB fuel w bpb).2 := by
  intro fuel
  induction fuel with
  | zero =>
    intro w bpb h1 h2 h3
    simp only [coalesceWidthAux]
    exact ⟨h2, h3, h1⟩
  | succ n ih =>
    intro w bpb h1 h2 h3
    simp only [coalesceWidthAux]
    by_cases h16 : bpb = 16
    · rw [if_pos h16]
      exact ⟨h2, h3, h1⟩
    · rw [if_neg h16]
      by_cases hal : isAligned WB (bpb <<< 1) = true
      · rw [if_pos hal]
        have hdl : bpb <<< 1 = 2 * bpb := by
          rw [Nat.shiftLeft_eq]; ring
        have hdvd2 : 2 * bpb ∣ 16 := dvd16_double bpb h3 h16
        have halWB : 2 * bpb ∣ WB := by
          rw [hdl] at hal
          exact (isAligned_iff _ _).mp hal
        have hweven : 2 ∣ w := by
          rcases halWB with ⟨q, hq⟩
          have heq : w * bpb = 2 * q * bpb := by rw [h2, hq]; ring
          exact ⟨q, Nat.eq_of_mul_eq_mul_right h1 heq⟩
        have hrec : w / 2 * (bpb <<< 1) = WB := by
          rcases hweven with ⟨q, hq⟩
          subst hq
          rw [Nat.mul_div_cancel_left q (by norm_num), hdl, ← h2]
          ring
        exact ih (w / 2) (bpb <<< 1) (by rw [hdl]; omega) hrec (by rw [hdl]; exact hdvd2)
      · rw [if_neg hal]
        exact ⟨h2, h3, h1⟩

/-- The same invariants for the older file's coalescing loop (alignment
tested against the current texture width). -/
theorem coalesceWidthOldAux_inv (WB : Nat) :
    ∀ (fuel w bpb : Nat), 0 < bpb → w * bpb = WB → bpb ∣ 16 →
      (coalesceWidthOldAux fuel w bpb).1 * (coalesceWidthOldAux fuel w bpb).2 = WB
        ∧ (coalesceWidthOldAux fuel w bpb).2 ∣ 16
        ∧ 0 < (coalesceWidthOldAux fuel w bpb).2 := by
  intro fuel
  induction fuel with
  | zero =>
    intro w bpb h1 h2 h3
    simp only [coalesceWidthOldAux]
    exact ⟨h2, h3, h1⟩
  | succ n ih =>
    intro w bpb h1 h2 h3
    simp only [coalesceWidthOldAux]
    by_cases h16 : bpb = 16
    · rw [if_pos h16]
      exact ⟨h2, h3, h1⟩
    · rw [if_neg h16]
      by_cases hal : isAligned w (bpb <<< 1) = true
      · rw [if_pos hal]
        have hdl : bpb <<< 1 = 2 * bpb := by
          rw [Nat.shiftLeft_eq]; ring
        have hdvd2 : 2 * bpb ∣ 16 := dvd16_double bpb h3 h16
        have halw : 2 * bpb ∣ w := by
          rw [hdl] at hal
          exact (isAligned_iff _ _).mp hal
        have hweven : 2 ∣ w := by
          rcases halw with ⟨q, hq⟩
          exact ⟨bpb * q, by rw [hq]; ring⟩
        have hrec : w / 2 * (bpb <<< 1) = WB := by
          rcases hweven with ⟨q, hq⟩
          subst hq
          rw [Nat.mul_div_cancel_left q (by norm_num), hdl, ← h2]
          ring
        exact ih (w / 2) (bpb <<< 1) (by rw [hdl]; omega) hrec (by rw [hdl]; exact hdvd2)
      · rw [if_neg hal]
        exact ⟨h2, h3, h1⟩

/-- The starting-block remainder of the subrect copier is below one GOB. -/
theorem startingBlockXBytes_le (oxB : Nat) : alignUp oxB 64 - oxB ≤ 63 := by
  have h1 := le_alignUp oxB 64 (by norm_num)
  have h2 : alignUp oxB 64 ≤ oxB + 63 := by
    unfold alignUp divideCeil
    exact Nat.div_mul_le_self (oxB + 63) 64
  omega

/-- Invariants of the subrect coalescing loop: the width-bytes product is
preserved, the bpb stays a positive divisor of 16 and keeps dividing the
origin byte offset. -/
theorem coalesceSubrectAux_inv (pWB oxB : Nat) :
    ∀ (fuel w bpb : Nat), 0 < bpb → w * bpb = pWB → bpb ∣ 16 → bpb ∣ oxB →
      (coalesceSubrectAux pWB (alignUp oxB 64 - oxB) fuel w bpb).1
          * (coalesceSubrectAux pWB (alignUp oxB 64 - oxB) fuel w bpb).2 = pWB
        ∧ (coalesceSubrectAux pWB (alignUp oxB 64 - oxB) fuel w bpb).2 ∣ 16
        ∧ 0 < (coalesceSubrectAux pWB (alignUp oxB 64 - oxB) fuel w bpb).2
        ∧ (coalesceSubrectAux pWB (alignUp oxB 64 - oxB) fuel w bpb).2 ∣ oxB := by
  intro fuel
  induction fuel with
  | zero =>
    intro w bpb h1 h2 h3 h4
    simp only [coalesceSubrectAux]
    exact ⟨h2, h3, h1, h4⟩
  | succ n ih =>
    intro w bpb h1 h2 h3 h4
    simp only [coalesceSubrectAux]
    by_cases h16 : bpb = 16
    · rw [if_pos h16]
      exact ⟨h2, h3, h1, h4⟩
    · rw [if_neg h16]
      set sbx := alignUp oxB 64 - oxB with hsbxdef
      by_cases hal : (isAligned ((pWB + 2 ^ 64 - sbx) % 2 ^ 64) (bpb <<< 1)
          && isAligned sbx (bpb <<< 1)) = true
      · rw [if_pos hal]
        rw [Bool.and_eq_true] at hal
        have hdl : bpb <<< 1 = 2 * bpb := by
          rw [Nat.shiftLeft_eq]; ring
        have hdvd2 : 2 * bpb ∣ 16 := dvd16_double bpb h3 h16
        have hd64 : 2 * bpb ∣ 64 := hdvd2.trans (by norm_num)
        have hd2p64 : 2 * bpb ∣ 2 ^ 64 :=
          hdvd2.trans ⟨2 ^ 60, by norm_num⟩
        have hsbx63 : sbx ≤ 63 := startingBlockXBytes_le oxB
        have hsbxdvd : 2 * bpb ∣ sbx := by
          have := (isAligned_iff _ _).mp hal.2
          rwa [hdl] at this
        have hoxledvd : 2 * bpb ∣ alignUp oxB 64 := hd64.trans (dvd_alignUp _ _)
        have hoxB : 2 * bpb ∣ oxB := by
          have hle := le_alignUp oxB 64 (by norm_num)
          have : oxB = alignUp oxB 64 - sbx := by omega
          rw [this]
          exact Nat.dvd_sub' hoxledvd hsbxdvd
        have hx : 2 * bpb ∣ pWB + 2 ^ 64 - sbx := by
          have hmod := (isAligned_iff _ _).mp hal.1
          rw [hdl] at hmod
          have hdp := Nat.div_add_mod (pWB + 2 ^ 64 - sbx) (2 ^ 64)
          have : pWB + 2 ^ 64 - sbx
              = 2 ^ 64 * ((pWB + 2 ^ 64 - sbx) / 2 ^ 64)
                + (pWB + 2 ^ 64 - sbx) % 2 ^ 64 := hdp.symm
          rw [this]
          exact Nat.dvd_add (hd2p64.mul_right _) hmod
        have hpWB : 2 * bpb ∣ pWB := by
          have hdiff : 2 * bpb ∣ 2 ^ 64 - sbx :=
            Nat.dvd_sub' hd2p64 hsbxdvd
          have hrepr : pWB = (pWB + 2 ^ 64 - sbx) - (2 ^ 64 - sbx) := by omega
          rw [hrepr]
          exact Nat.dvd_sub' hx hdiff
        have hweven : 2 ∣ w := by
          rcases hpWB with ⟨q, hq⟩
          have heq : w * bpb = 2 * q * bpb := by
            rw [h2, hq]; ring
          exact ⟨q, Nat.eq_of_mul_eq_mul_right h1 heq⟩
        have hrec : w / 2 * (bpb <<< 1) = pWB := by
          rcases hweven with ⟨q, hq⟩
          subst hq
          rw [Nat.mul_div_cancel_left q (by norm_num), hdl, ← h2]
          ring
        exact ih (w / 2) (bpb <<< 1) (by rw [hdl]; omega) hrec
          (by rw [hdl]; exact hdvd2) (by rw [hdl]; exact hoxB)
      · rw [if_neg hal]
        exact ⟨h2, h3, h1, h4⟩

/-- Invariants of `coalesceWidth` for a bpb that divides 16. -/
theorem coalesceWidth_inv (w bpb WB : Nat) (h1 : 0 < bpb) (h2 : w * bpb = WB)
    (h3 : bpb ∣ 16) :
    (coalesceWidth w bpb WB).1 * (coalesceWidth w bpb WB).2 = WB
      ∧ (coalesceWidth w bpb WB).2 ∣ 16
      ∧ 0 < (coalesceWidth w bpb WB).2 := by
  unfold coalesceWidth
  rw [if_neg (ne_twelve_of_dvd16 bpb h3)]
  exact coalesceWidthAux_inv WB 5 w bpb h1 h2 h3

/-- Invariants of `coalesceWidthOld` for a bpb that divides 16. -/
theorem coalesceWidthOld_inv (w bpb WB : Nat) (h1 : 0 < bpb) (h2 : w * bpb = WB)
    (h3 : bpb ∣ 16) :
    (coalesceWidthOld w bpb).1 * (coalesceWidthOld w bpb).2 = WB
      ∧ (coalesceWidthOld w bpb).2 ∣ 16
      ∧ 0 < (coalesceWidthOld w bpb).2 := by
  unfold coalesceWidthOld
  rw [if_neg (ne_twelve_of_dvd16 bpb h3)]
  exact coalesceWidthOldAux_inv WB 5 w bpb h1 h2 h3

/-- Invariants of `coalesceSubrect` for a bpb that divides 16 and divides the
origin byte offset. -/
theorem coalesceSubrect_inv (w bpb pWB oxB : Nat) (h1 : 0 < bpb)
    (h2 : w * bpb = pWB) (h3 : bpb ∣ 16) (h4 : bpb ∣ oxB) :
    (coalesceSubrect w bpb pWB (alignUp oxB 64 - oxB)).1
        * (coalesceSubrect w bpb pWB (alignUp oxB 64 - oxB)).2 = pWB
      ∧ (coalesceSubrect w bpb pWB (alignUp oxB 64 - oxB)).2 ∣ 16
      ∧ 0 < (coalesceSubrect w bpb pWB (alignUp oxB 64 - oxB)).2
      ∧ (coalesceSubrect w bpb pWB (alignUp oxB 64 - oxB)).2 ∣ oxB := by
  unfold coalesceSubrect
  rw [if_neg (ne_twelve_of_dvd16 bpb h3)]
  exact coalesceSubrectAux_inv pWB oxB 5 w bpb h1 h2 h3 h4

/-- The pitch-to-block-linear element move, spelled out. -/
theorem blArithMove_false (H bpb pB oxB oyOff wA AD gbh z l x : Nat) :
    blArithMove false H bpb pB oxB oyOff wA AD gbh z l x
      = ⟨blByteOffset wA AD gbh (oxB + x * bpb) (oyOff + l) z,
         (z * H + l) * pB + x * bpb, bpb⟩ := rfl

/-- The block-linear-to-pitch element move, spelled out. -/
theorem blArithMove_true (H bpb pB oxB oyOff wA AD gbh z l x : Nat) :
    blArithMove true H bpb pB oxB oyOff wA AD gbh z l x
      = ⟨(z * H + l) * pB + x * bpb,
         blByteOffset wA AD gbh (oxB + x * bpb) (oyOff + l) z, bpb⟩ := rfl

/-- The copier move list in div/mod form, for power-of-two GOB block
heights. -/
theorem blSurfaceMoves_eq_arith (dir : Bool)
    (D H w bpb pB oxB oyOff wA AD gbh : Nat) (hgh : ∃ k, gbh = 2 ^ k) :
    blSurfaceMoves dir D H w bpb pB oxB oyOff wA AD gbh
      = (List.range D).flatMap fun slice =>
          (List.range H).flatMap fun line =>
            (List.range w).map fun pixel =>
              blArithMove dir H bpb pB oxB oyOff wA AD gbh slice line pixel := by
  unfold blSurfaceMoves
  simp only [blElementMove_eq_arith dir H bpb pB oxB oyOff wA AD gbh hgh]

/-- For pitch-to-block-linear copies, a byte of the swizzled destination range
of one element pins down the element exactly. -/
theorem arith_cover_eq (D H w bpb pB oxB oyOff wA AD gbh : Nat)
    (hbpb : 0 < bpb) (hdvd : bpb ∣ 16) (hox : bpb ∣ oxB)
    (hfit : oxB + w * bpb ≤ wA) (h64 : 64 ∣ wA) (hgbh : 0 < gbh)
    (hDAD : D ≤ AD)
    (z l x : Nat) (hz : z < D) (hx : x < w) (j : Nat) (hj : j < bpb)
    (z' l' x' : Nat) (hz' : z' < D) (hx' : x' < w)
    (hcov : (blArithMove false H bpb pB oxB oyOff wA AD gbh z' l' x').covers
      (blByteOffset wA AD gbh (oxB + x * bpb) (oyOff + l) z + j)) :
    z' = z ∧ l' = l ∧ x' = x ∧ (blByteOffset wA AD gbh (oxB + x * bpb) (oyOff + l) z + j)
        - blByteOffset wA AD gbh (oxB + x' * bpb) (oyOff + l') z' = j := by
  rw [blArithMove_false] at hcov
  simp only [Move.covers] at hcov
  obtain ⟨hc1, hc2⟩ := hcov
  set a := blByteOffset wA AD gbh (oxB + x * bpb) (oyOff + l) z + j with ha
  set t := a - blByteOffset wA AD gbh (oxB + x' * bpb) (oyOff + l') z' with htdef
  have ht : t < bpb := by omega
  have hrepr : a = blByteOffset wA AD gbh (oxB + x' * bpb) (oyOff + l') z' + t := by
    omega
  have hox' : bpb ∣ oxB + x' * bpb := Nat.dvd_add hox ⟨x', Nat.mul_comm x' bpb⟩
  have hoxx : bpb ∣ oxB + x * bpb := Nat.dvd_add hox ⟨x, Nat.mul_comm x bpb⟩
  have hb1 : oxB + x' * bpb + t < wA := by
    have : (x' + 1) * bpb ≤ w * bpb := mul_le_mul_right' (by omega) bpb
    have hexp : (x' + 1) * bpb = x' * bpb + bpb := by ring
    omega
  have hb2 : oxB + x * bpb + j < wA := by
    have : (x + 1) * bpb ≤ w * bpb := mul_le_mul_right' (by omega) bpb
    have hexp : (x + 1) * bpb = x * bpb + bpb := by ring
    omega
  have e1 : blByteDecode wA AD gbh a = (oxB + x' * bpb + t, oyOff + l', z') := by
    rw [hrepr, ← blByteOffset_add wA AD gbh (oxB + x' * bpb) t bpb _ _ hdvd hox' ht]
    exact blByteDecode_offset wA AD gbh _ _ _ h64 hgbh hb1 (by omega)
  have e2 : blByteDecode wA AD gbh a = (oxB + x * bpb + j, oyOff + l, z) := by
    rw [ha, ← blByteOffset_add wA AD gbh (oxB + x * bpb) j bpb _ _ hdvd hoxx hj]
    exact blByteDecode_offset wA AD gbh _ _ _ h64 hgbh hb2 (by omega)
  rw [e1] at e2
  have hxeq : oxB + x' * bpb + t = oxB + x * bpb + j := congrArg Prod.fst e2
  have hyz : oyOff + l' = oyOff + l ∧ z' = z := by
    have := congrArg Prod.snd e2
    exact ⟨congrArg Prod.fst this, congrArg Prod.snd this⟩
  obtain ⟨hyz1, hyz2⟩ := hyz
  have hxbj : x' * bpb + t = x * bpb + j := by omega
  have hx'id : (x' * bpb + t) / bpb = x' := by
    rw [Nat.add_comm, Nat.add_mul_div_right _ _ hbpb, Nat.div_eq_of_lt ht,
      Nat.zero_add]
  have hxid : (x * bpb + j) / bpb = x := by
    rw [Nat.add_comm, Nat.add_mul_div_right _ _ hbpb, Nat.div_eq_of_lt hj,
      Nat.zero_add]
  have hxeq2 : x' = x := by
    rw [← hx'id, ← hxid, hxbj]
  have htj : t = j := by
    have h := hxbj
    rw [hxeq2] at h
    omega
  refine ⟨hyz2, by omega, hxeq2, by omega⟩

/-- Pitch-to-block-linear copies place byte `j` of element `(x, l, z)` at its
swizzled offset, reading it from its pitch offset. -/
theorem blMoves_pitchToBL_eval
    (D H w bpb pB oxB oyOff wA AD gbh : Nat)
    (hgh : ∃ k, gbh = 2 ^ k)
    (hbpb : 0 < bpb) (hdvd : bpb ∣ 16) (hox : bpb ∣ oxB)
    (hfit : oxB + w * bpb ≤ wA) (h64 : 64 ∣ wA) (hDAD : D ≤ AD)
    (z l x j : Nat) (hz : z < D) (hl : l < H) (hx : x < w) (hj : j < bpb)
    (s b : Buf) :
    applyMoves s (blSurfaceMoves false D H w bpb pB oxB oyOff wA AD gbh) b
        (blByteOffset wA AD gbh (oxB + x * bpb) (oyOff + l) z + j)
      = s ((z * H + l) * pB + x * bpb + j) := by
  have hgbh : 0 < gbh := by
    obtain ⟨k, rfl⟩ := hgh
    positivity
  rw [blSurfaceMoves_eq_arith false D H w bpb pB oxB oyOff wA AD gbh hgh]
  set a := blByteOffset wA AD gbh (oxB + x * bpb) (oyOff + l) z + j with ha
  apply applyMoves_range_flatMap_eval s _ D z a _ hz
  · intro z'' h1 h2 m hm
    simp only [List.mem_flatMap, List.mem_map, List.mem_range] at hm
    obtain ⟨l'', hl'', x'', hx'', rfl⟩ := hm
    intro hcovm
    obtain ⟨hzz, -, -, -⟩ := arith_cover_eq D H w bpb pB oxB oyOff wA AD gbh
      hbpb hdvd hox hfit h64 hgbh hDAD z l x hz hx j hj z'' l'' x'' h2 hx'' hcovm
    omega
  intro b1
  apply applyMoves_range_flatMap_eval s _ H l a _ hl
  · intro l'' h1 h2 m hm
    simp only [List.mem_map, List.mem_range] at hm
    obtain ⟨x'', hx'', rfl⟩ := hm
    intro hcovm
    obtain ⟨-, hll, -, -⟩ := arith_cover_eq D H w bpb pB oxB oyOff wA AD gbh
      hbpb hdvd hox hfit h64 hgbh hDAD z l x hz hx j hj z l'' x'' hz hx'' hcovm
    omega
  intro b2
  rw [applyMoves_range_map_eval s
    (fun pixel => blArithMove false H bpb pB oxB oyOff wA AD gbh z l pixel)
    w x a hx
    (by simp only [blArithMove_false, Move.covers]; omega)
    (fun x'' h1 h2 hcovm => by
      obtain ⟨-, -, hxx, -⟩ := arith_cover_eq D H w bpb pB oxB oyOff wA AD gbh
        hbpb hdvd hox hfit h64 hgbh hDAD z l x hz hx j hj z l x'' hz h2 hcovm
      omega)
    b2]
  simp only [blArithMove_false]
  congr 1
  omega

/-- Pitch-to-block-linear copies leave every byte outside the swizzled image
of the copied rectangle unchanged. -/
theorem blMoves_pitchToBL_frame
    (D H w bpb pB oxB oyOff wA AD gbh : Nat)
    (hgh : ∃ k, gbh = 2 ^ k)
    (hbpb : 0 < bpb) (hdvd : bpb ∣ 16) (hox : bpb ∣ oxB)
    (a : Nat)
    (ha : ∀ z, z < D → ∀ l, l < H → ∀ c, c < w * bpb →
      a ≠ blByteOffset wA AD gbh (oxB + c) (oyOff + l) z)
    (s b : Buf) :
    applyMoves s (blSurfaceMoves false D H w bpb pB oxB oyOff wA AD gbh) b a
      = b a := by
  rw [blSurfaceMoves_eq_arith false D H w bpb pB oxB oyOff wA AD gbh hgh]
  apply applyMoves_notCovered
  intro m hm
  simp only [List.mem_flatMap, List.mem_map, List.mem_range] at hm
  obtain ⟨z', hz', l', hl', x', hx', rfl⟩ := hm
  intro hcovm
  rw [blArithMove_false] at hcovm
  simp only [Move.covers] at hcovm
  obtain ⟨hc1, hc2⟩ := hcovm
  set t := a - blByteOffset wA AD gbh (oxB + x' * bpb) (oyOff + l') z' with htdef
  have ht : t < bpb := by omega
  have hox' : bpb ∣ oxB + x' * bpb := Nat.dvd_add hox ⟨x', Nat.mul_comm x' bpb⟩
  have harepr : a = blByteOffset wA AD gbh (oxB + (x' * bpb + t)) (oyOff + l') z' := by
    rw [← Nat.add_assoc,
      blByteOffset_add wA AD gbh (oxB + x' * bpb) t bpb _ _ hdvd hox' ht]
    omega
  have hcb : x' * bpb + t < w * bpb := by
    have hle : (x' + 1) * bpb ≤ w * bpb := mul_le_mul_right' (by omega) bpb
    have hexp : (x' + 1) * bpb = x' * bpb + bpb := by ring
    omega
  exact ha z' hz' l' hl' (x' * bpb + t) hcb harepr

/-- Block-linear-to-pitch copies: every byte of a covered pitch row receives a
block-linear byte, read at the swizzled offset of the corresponding element of
some covered row decomposition of the address. -/
theorem blMoves_blToPitch_eval_ex
    (D H w bpb pB oxB oyOff wA AD gbh : Nat)
    (hgh : ∃ k, gbh = 2 ^ k) (hbpb : 0 < bpb)
    (a : Nat)
    (hcov : ∃ r, r < D * H ∧ r * pB ≤ a ∧ a < r * pB + w * bpb)
    (s b : Buf) :
    ∃ z l x j, z < D ∧ l < H ∧ x < w ∧ j < bpb
      ∧ a = (z * H + l) * pB + x * bpb + j
      ∧ (∀ r', z * H + l < r' → r' < D * H →
          ¬ (r' * pB ≤ a ∧ a < r' * pB + w * bpb))
      ∧ applyMoves s (blSurfaceMoves true D H w bpb pB oxB oyOff wA AD gbh) b a
          = s (blByteOffset wA AD gbh (oxB + x * bpb) (oyOff + l) z + j) := by
  obtain ⟨r0, hr0, hra0, hrb0⟩ := hcov
  have hDH : 0 < D * H := by omega
  have hH : 0 < H := by
    rcases Nat.eq_zero_or_pos H with h | h
    · rw [h, Nat.mul_zero] at hDH; omega
    · exact h
  set P : Nat → Prop := fun r => r * pB ≤ a ∧ a < r * pB + w * bpb with hP
  have hdec : DecidablePred P := fun r => by
    rw [hP]
    infer_instance
  set r := Nat.findGreatest P (D * H - 1) with hrdef
  have hPr : P r := Nat.findGreatest_spec (by omega : r0 ≤ D * H - 1) ⟨hra0, hrb0⟩
  have hrle : r ≤ D * H - 1 := Nat.findGreatest_le _
  have hrlt : r < D * H := by omega
  have hmax : ∀ r', r < r' → r' < D * H → ¬ P r' := fun r' h1 h2 =>
    Nat.findGreatest_is_greatest h1 (by omega)
  set z := r / H with hzdef
  set l := r % H with hldef
  have hz : z < D := by
    rw [hzdef]
    exact (Nat.div_lt_iff_lt_mul hH).mpr (by rw [Nat.mul_comm] at hrlt ⊢; omega)
  have hl : l < H := Nat.mod_lt _ hH
  have hrzl : z * H + l = r := by
    have := Nat.div_add_mod r H
    rw [hzdef, hldef, Nat.mul_comm]
    omega
  set c := a - r * pB with hcdef
  have hcWB : c < w * bpb := by
    obtain ⟨h1, h2⟩ := hPr
    omega
  set x := c / bpb with hxdef
  set j := c % bpb with hjdef
  have hx : x < w := by
    rw [hxdef]
    exact (Nat.div_lt_iff_lt_mul hbpb).mpr (by rw [Nat.mul_comm] at hcWB ⊢; omega)
  have hj : j < bpb := Nat.mod_lt _ hbpb
  have hcxj : x * bpb + j = c := by
    have := Nat.div_add_mod c bpb
    rw [hxdef, hjdef, Nat.mul_comm]
    omega
  have hPr1 := hPr.1
  have haeq : a = (z * H + l) * pB + x * bpb + j := by
    rw [hrzl]
    omega
  refine ⟨z, l, x, j, hz, hl, hx, hj, haeq,
    fun r' h1' h2' => hmax r' (by omega) h2', ?_⟩
  rw [blSurfaceMoves_eq_arith true D H w bpb pB oxB oyOff wA AD gbh hgh]
  have hrowgt : ∀ z'' l'' x'', z'' < D → l'' < H → x'' < w → r < z'' * H + l'' →
      ¬ (blArithMove true H bpb pB oxB oyOff wA AD gbh z'' l'' x'').covers a := by
    intro z'' l'' x'' hz'' hl'' hx'' hrgt hcovm
    rw [blArithMove_true] at hcovm
    simp only [Move.covers] at hcovm
    obtain ⟨hc1, hc2⟩ := hcovm
    have hr'lt : z'' * H + l'' < D * H := by
      have h1 : z'' + 1 ≤ D := by omega
      have h2 : (z'' + 1) * H ≤ D * H := mul_le_mul_right' h1 H
      have h3 : (z'' + 1) * H = z'' * H + H := by ring
      omega
    apply hmax (z'' * H + l'') hrgt hr'lt
    constructor
    · have h4 : (z'' * H + l'') * pB ≤ (z'' * H + l'') * pB + x'' * bpb := by omega
      omega
    · have hle : (x'' + 1) * bpb ≤ w * bpb := mul_le_mul_right' (by omega) bpb
      have hexp : (x'' + 1) * bpb = x'' * bpb + bpb := by ring
      omega
  apply applyMoves_range_flatMap_eval s _ D z a _ hz
  · intro z'' h1 h2 m hm
    simp only [List.mem_flatMap, List.mem_map, List.mem_range] at hm
    obtain ⟨l'', hl'', x'', hx'', rfl⟩ := hm
    apply hrowgt z'' l'' x'' h2 hl'' hx''
    have h3 : (z + 1) * H ≤ z'' * H := mul_le_mul_right' (by omega) H
    have h4 : (z + 1) * H = z * H + H := by ring
    omega
  intro b1
  apply applyMoves_range_flatMap_eval s _ H l a _ hl
  · intro l'' h1 h2 m hm
    simp only [List.mem_map, List.mem_range] at hm
    obtain ⟨x'', hx'', rfl⟩ := hm
    apply hrowgt z l'' x'' hz h2 hx''
    omega
  intro b2
  have hxble : x * bpb ≤ c := by
    rw [hxdef]
    exact Nat.div_mul_le_self c bpb
  rw [applyMoves_range_map_eval s
    (fun pixel => blArithMove true H bpb pB oxB oyOff wA AD gbh z l pixel)
    w x a hx
    (by simp only [blArithMove_true, Move.covers, hrzl]; omega)
    (fun x'' h1 h2 hcovm => by
      simp only [blArithMove_true, Move.covers, hrzl] at hcovm
      obtain ⟨hc1, hc2⟩ := hcovm
      have hle : x * bpb + bpb ≤ x'' * bpb := by
        have h3 : (x + 1) * bpb ≤ x'' * bpb := mul_le_mul_right' (by omega) bpb
        have h4 : (x + 1) * bpb = x * bpb + bpb := by ring
        omega
      omega)
    b2]
  simp only [blArithMove_true, hrzl]
  congr 1
  omega

/-- Quotient/remainder decompositions with the same base agree. -/
theorem mul_add_eq_unique (B q1 r1 q2 r2 : Nat) (h1 : r1 < B) (h2 : r2 < B)
    (heq : q1 * B + r1 = q2 * B + r2) : q1 = q2 ∧ r1 = r2 := by
  have hB : 0 < B := by omega
  have e1 : (q1 * B + r1) / B = q1 := by
    rw [Nat.add_comm, Nat.add_mul_div_right _ _ hB, Nat.div_eq_of_lt h1,
      Nat.zero_add]
  have e2 : (q2 * B + r2) / B = q2 := by
    rw [Nat.add_comm, Nat.add_mul_div_right _ _ hB, Nat.div_eq_of_lt h2,
      Nat.zero_add]
  have hq : q1 = q2 := by rw [← e1, ← e2, heq]
  refine ⟨hq, ?_⟩
  rw [hq] at heq
  omega

/-- The 12-byte case skips coalescing entirely. -/
theorem coalesceWidth_twelve (w WB : Nat) : coalesceWidth w 12 WB = (w, 12) := by
  unfold coalesceWidth
  rw [if_pos rfl]

/-- The spec's section 4.B formula agrees with the byte-level offset of the
implementation (at the first byte of a texel block). -/
theorem specBlockLinearOffset_eq (dimensions : Dimensions)
    (fmtBw fmtBh bpb gbh gbd : Nat) (hgbh : 0 < gbh) (hgbd : 0 < gbd)
    (x y z : Nat) :
    specBlockLinearOffset dimensions fmtBw fmtBh bpb gbh gbd x y z
      = blByteOffset (alignUp (divideCeil dimensions.width fmtBw * bpb) 64)
          (alignUp dimensions.depth gbd) gbh (x * bpb) y z := by
  simp only [specBlockLinearOffset, blByteOffset, alignDown]
  rw [land_one_eq, land_seven_eq, land_fifteen_eq, land_thirtyone_eq,
    land_sixtythree_eq]
  simp only [Nat.shiftRight_eq_div_pow, Nat.shiftLeft_eq]
  norm_num
  rw [show (8:Nat) * gbh = gbh * 8 from Nat.mul_comm 8 gbh]
  rw [Nat.mul_div_cancel _ (show 0 < gbh * 8 by positivity)]
  have hzdm : gbd * (z / gbd) + z % gbd = z := Nat.div_add_mod z gbd
  set q := z / gbd with hq
  set r := z % gbd with hr
  have hzz : z = gbd * q + r := by omega
  rw [hzz]
  ring

/-- Block-linear-to-pitch copies with non-overlapping rows give each pitch
byte of the copied region the block-linear byte of its (unique) element. -/
theorem blToPitch_unique_eval
    (D H w bpb pB oxB oyOff wA AD gbh : Nat)
    (hgh : ∃ k, gbh = 2 ^ k) (hbpb : 0 < bpb) (hpBW : w * bpb ≤ pB)
    (z l c : Nat) (hz : z < D) (hl : l < H) (hc : c < w * bpb)
    (s b : Buf) :
    applyMoves s (blSurfaceMoves true D H w bpb pB oxB oyOff wA AD gbh) b
        ((z * H + l) * pB + c)
      = s (blByteOffset wA AD gbh (oxB + c / bpb * bpb) (oyOff + l) z + c % bpb) := by
  have hrlt : z * H + l < D * H := by
    have h1 : (z + 1) * H ≤ D * H := mul_le_mul_right' (by omega) H
    have h2 : (z + 1) * H = z * H + H := by ring
    omega
  have hcov : ∃ r, r < D * H ∧ r * pB ≤ (z * H + l) * pB + c
      ∧ (z * H + l) * pB + c < r * pB + w * bpb :=
    ⟨z * H + l, hrlt, by omega, by omega⟩
  obtain ⟨z1, l1, x1, j1, hz1, hl1, hx1, hj1, haeq, -, hres⟩ :=
    blMoves_blToPitch_eval_ex D H w bpb pB oxB oyOff wA AD gbh hgh hbpb
      ((z * H + l) * pB + c) hcov s b
  have hrem1 : x1 * bpb + j1 < w * bpb := by
    have h1 : (x1 + 1) * bpb ≤ w * bpb := mul_le_mul_right' (by omega) bpb
    have h2 : (x1 + 1) * bpb = x1 * bpb + bpb := by ring
    omega
  have heq : (z1 * H + l1) * pB + (x1 * bpb + j1) = (z * H + l) * pB + c := by
    omega
  obtain ⟨hrow, hcval⟩ := mul_add_eq_unique pB (z1 * H + l1) (x1 * bpb + j1)
    (z * H + l) c (by omega) (by omega) heq
  obtain ⟨hz1e, hl1e⟩ := mul_add_eq_unique H z1 l1 z l hl1 hl hrow
  have hdm := Nat.div_add_mod c bpb
  have hcd : c / bpb * bpb + c % bpb = c := by
    rw [Nat.mul_comm] at hdm
    omega
  obtain ⟨hx1e, hj1e⟩ := mul_add_eq_unique bpb x1 j1 (c / bpb) (c % bpb) hj1
    (Nat.mod_lt _ hbpb) (by omega)
  rw [hres, hz1e, hl1e, hx1e, hj1e]

/-- For a bpb dividing 16, the full-surface pitch-to-block-linear copy places
byte `j` of texel block `(x, y, z)` at the spec's swizzled offset, reading it
from its pitch offset. -/
theorem fullPitchToBL_element (dimensions : Dimensions)
    (fmtBw fmtBh bpb pitchAmount gbh gbd : Nat)
    (hdvd : bpb ∣ 16) (hpos : 0 < bpb)
    (hgh : ∃ k, gbh = 2 ^ k) (hgd : ∃ k, gbd = 2 ^ k)
    (x y z j : Nat)
    (hx : x < divideCeil dimensions.width fmtBw)
    (hy : y < divideCeil dimensions.height fmtBh)
    (hz : z < dimensions.depth) (hj : j < bpb)
    (pitchBuf blockLinear : Buf) :
    CopyPitchToBlockLinear dimensions fmtBw fmtBh bpb pitchAmount gbh gbd
        pitchBuf blockLinear
        (specBlockLinearOffset dimensions fmtBw fmtBh bpb gbh gbd x y z + j)
      = pitchBuf ((z * divideCeil dimensions.height fmtBh + y)
          * (if pitchAmount ≠ 0 then pitchAmount
             else divideCeil dimensions.width fmtBw * bpb) + x * bpb + j) := by
  have hgbh : 0 < gbh := by obtain ⟨k, rfl⟩ := hgh; positivity
  have hgbd : 0 < gbd := by obtain ⟨k, rfl⟩ := hgd; positivity
  obtain ⟨hinv1, hinv2, hinv3⟩ := coalesceWidth_inv (divideCeil dimensions.width fmtBw)
    bpb (divideCeil dimensions.width fmtBw * bpb) hpos rfl hdvd
  simp only [CopyPitchToBlockLinear, CopyBlockLinearInternal, GobWidth]
  rw [if_pos (supportedBpb_of_dvd16 _ hinv2 hinv3)]
  rw [if_neg (by simp : ¬ ((false : Bool) = true))]
  generalize hcgen : coalesceWidth (divideCeil dimensions.width fmtBw) bpb
    (divideCeil dimensions.width fmtBw * bpb) = c
  rw [hcgen] at hinv1 hinv2 hinv3
  have hc0 : x * bpb + j < divideCeil dimensions.width fmtBw * bpb := by
    have h1 : (x + 1) * bpb ≤ divideCeil dimensions.width fmtBw * bpb :=
      mul_le_mul_right' (by omega) bpb
    have h2 : (x + 1) * bpb = x * bpb + bpb := by ring
    omega
  have hx' : (x * bpb + j) / c.2 < c.1 :=
    (Nat.div_lt_iff_lt_mul hinv3).mpr (by omega)
  have hj' : (x * bpb + j) % c.2 < c.2 := Nat.mod_lt _ hinv3
  have hsplit : (x * bpb + j) / c.2 * c.2 + (x * bpb + j) % c.2 = x * bpb + j := by
    have := Nat.div_add_mod (x * bpb + j) c.2
    rw [Nat.mul_comm] at this
    omega
  have hfit : 0 + c.1 * c.2 ≤ alignUp (divideCeil dimensions.width fmtBw * bpb) 64 := by
    rw [Nat.zero_add, hinv1]
    exact le_alignUp _ _ (by norm_num)
  have hDAD : dimensions.depth ≤ alignUp dimensions.depth gbd := le_alignUp _ _ hgbd
  have hE := blMoves_pitchToBL_eval dimensions.depth
    (divideCeil dimensions.height fmtBh) c.1 c.2
    (if pitchAmount ≠ 0 then pitchAmount else divideCeil dimensions.width fmtBw * bpb)
    0 0 (alignUp (divideCeil dimensions.width fmtBw * bpb) 64)
    (alignUp dimensions.depth gbd) gbh
    hgh hinv3 hinv2 (dvd_zero c.2) hfit (dvd_alignUp _ _) hDAD
    z y ((x * bpb + j) / c.2) ((x * bpb + j) % c.2) hz hy hx' hj'
    pitchBuf blockLinear
  rw [Nat.zero_add, Nat.zero_add] at hE
  have haddr2 : (z * divideCeil dimensions.height fmtBh + y)
        * (if pitchAmount ≠ 0 then pitchAmount
           else divideCeil dimensions.width fmtBw * bpb)
        + (x * bpb + j) / c.2 * c.2 + (x * bpb + j) % c.2
      = (z * divideCeil dimensions.height fmtBh + y)
        * (if pitchAmount ≠ 0 then pitchAmount
           else divideCeil dimensions.width fmtBw * bpb) + x * bpb + j := by
    omega
  rw [haddr2] at hE
  have haddr1 : specBlockLinearOffset dimensions fmtBw fmtBh bpb gbh gbd x y z + j
      = blByteOffset (alignUp (divideCeil dimensions.width fmtBw * bpb) 64)
          (alignUp dimensions.depth gbd) gbh ((x * bpb + j) / c.2 * c.2) y z
        + (x * bpb + j) % c.2 := by
    rw [specBlockLinearOffset_eq dimensions fmtBw fmtBh bpb gbh gbd hgbh hgbd x y z]
    rw [← blByteOffset_add _ _ gbh (x * bpb) j bpb y z hdvd
      ⟨x, Nat.mul_comm x bpb⟩ hj]
    rw [← blByteOffset_add _ _ gbh ((x * bpb + j) / c.2 * c.2) ((x * bpb + j) % c.2)
      c.2 y z hinv2 ⟨(x * bpb + j) / c.2, Nat.mul_comm _ _⟩ hj']
    congr 1
    omega
  rw [haddr1]
  exact hE

/-- The full-surface block-linear-to-pitch copy, for supported bpb values and
a pitch stride of zero or at least one row, gives each destination byte the
block-linear byte of its element, at the spec's swizzled offset. -/
theorem fullBLToPitch_element (dimensions : Dimensions)
    (fmtBw fmtBh bpb pitchAmount gbh gbd : Nat)
    (hbpb : bpb = 1 ∨ bpb = 2 ∨ bpb = 4 ∨ bpb = 8 ∨ bpb = 12 ∨ bpb = 16)
    (hstride : pitchAmount = 0 ∨ divideCeil dimensions.width fmtBw * bpb ≤ pitchAmount)
    (hgh : ∃ k, gbh = 2 ^ k) (hgd : ∃ k, gbd = 2 ^ k)
    (x y z j : Nat)
    (hx : x < divideCeil dimensions.width fmtBw)
    (hy : y < divideCeil dimensions.height fmtBh)
    (hz : z < dimensions.depth) (hj : j < bpb)
    (blockLinear pitchBuf : Buf) :
    CopyBlockLinearToPitch dimensions fmtBw fmtBh bpb pitchAmount gbh gbd
        blockLinear pitchBuf
        ((z * divideCeil dimensions.height fmtBh + y)
          * (if pitchAmount ≠ 0 then pitchAmount
             else divideCeil dimensions.width fmtBw * bpb) + x * bpb + j)
      = blockLinear
          (specBlockLinearOffset dimensions fmtBw fmtBh bpb gbh gbd x y z + j) := by
  have hgbh : 0 < gbh := by obtain ⟨k, rfl⟩ := hgh; positivity
  have hgbd : 0 < gbd := by obtain ⟨k, rfl⟩ := hgd; positivity
  have hpos : 0 < bpb := by rcases hbpb with rfl | rfl | rfl | rfl | rfl | rfl <;> decide
  have hc0 : x * bpb + j < divideCeil dimensions.width fmtBw * bpb := by
    have h1 : (x + 1) * bpb ≤ divideCeil dimensions.width fmtBw * bpb :=
      mul_le_mul_right' (by omega) bpb
    have h2 : (x + 1) * bpb = x * bpb + bpb := by ring
    omega
  have hpBW : divideCeil dimensions.width fmtBw * bpb
      ≤ (if pitchAmount ≠ 0 then pitchAmount
         else divideCeil dimensions.width fmtBw * bpb) := by
    rcases hstride with h | h
    · rw [h, if_neg (by omega)]
    · by_cases h0 : pitchAmount = 0
      · rw [h0, if_neg (by omega)]
      · rw [if_pos h0]
        exact h
  have hsplit : (x * bpb + j) / bpb = x ∧ (x * bpb + j) % bpb = j := by
    constructor
    · rw [Nat.add_comm, Nat.add_mul_div_right _ _ hpos, Nat.div_eq_of_lt hj,
        Nat.zero_add]
    · rw [Nat.add_comm, Nat.add_mul_mod_self_right]
      exact Nat.mod_eq_of_lt hj
  have hcfacts : (coalesceWidth (divideCeil dimensions.width fmtBw) bpb
          (divideCeil dimensions.width fmtBw * bpb)).1
        * (coalesceWidth (divideCeil dimensions.width fmtBw) bpb
          (divideCeil dimensions.width fmtBw * bpb)).2
        = divideCeil dimensions.width fmtBw * bpb
      ∧ 0 < (coalesceWidth (divideCeil dimensions.width fmtBw) bpb
          (divideCeil dimensions.width fmtBw * bpb)).2
      ∧ supportedBpb (coalesceWidth (divideCeil dimensions.width fmtBw) bpb
          (divideCeil dimensions.width fmtBw * bpb)).2 = true
      ∧ ((coalesceWidth (divideCeil dimensions.width fmtBw) bpb
            (divideCeil dimensions.width fmtBw * bpb)).2 ∣ 16 ∧ bpb ∣ 16
          ∨ bpb = 12
            ∧ (coalesceWidth (divideCeil dimensions.width fmtBw) bpb
                (divideCeil dimensions.width fmtBw * bpb)).2 = 12) := by
    by_cases h12 : bpb = 12
    · subst h12
      rw [coalesceWidth_twelve]
      exact ⟨rfl, by norm_num, rfl, Or.inr ⟨rfl, rfl⟩⟩
    · have hdvd : bpb ∣ 16 := by
        rcases hbpb with rfl | rfl | rfl | rfl | rfl | rfl
        · decide
        · decide
        · decide
        · decide
        · exact absurd rfl h12
        · decide
      obtain ⟨h1, h2, h3⟩ := coalesceWidth_inv (divideCeil dimensions.width fmtBw)
        bpb (divideCeil dimensions.width fmtBw * bpb) hpos rfl hdvd
      exact ⟨h1, h3, supportedBpb_of_dvd16 _ h2 h3, Or.inl ⟨h2, hdvd⟩⟩
  simp only [CopyBlockLinearToPitch, CopyBlockLinearInternal, GobWidth]
  obtain ⟨hinv1, hinv3, hsupp, hdich⟩ := hcfacts
  rw [if_pos hsupp]
  rw [if_pos (by trivial : True)]
  generalize hcgen : coalesceWidth (divideCeil dimensions.width fmtBw) bpb
    (divideCeil dimensions.width fmtBw * bpb) = c
  rw [hcgen] at hinv1 hinv3 hdich
  have haddr : (z * divideCeil dimensions.height fmtBh + y)
        * (if pitchAmount ≠ 0 then pitchAmount
           else divideCeil dimensions.width fmtBw * bpb) + x * bpb + j
      = (z * divideCeil dimensions.height fmtBh + y)
        * (if pitchAmount ≠ 0 then pitchAmount
           else divideCeil dimensions.width fmtBw * bpb) + (x * bpb + j) := by
    omega
  rw [haddr]
  rw [blToPitch_unique_eval dimensions.depth (divideCeil dimensions.height fmtBh)
    c.1 c.2
    (if pitchAmount ≠ 0 then pitchAmount else divideCeil dimensions.width fmtBw * bpb)
    0 0 (alignUp (divideCeil dimensions.width fmtBw * bpb) 64)
    (alignUp dimensions.depth gbd) gbh hgh hinv3 (by omega)
    z y (x * bpb + j) hz hy (by omega) blockLinear pitchBuf]
  congr 1
  rw [Nat.zero_add, Nat.zero_add,
    specBlockLinearOffset_eq dimensions fmtBw fmtBh bpb gbh gbd hgbh hgbd x y z]
  rcases hdich with ⟨hc216, hbpb16⟩ | ⟨h12, hc212⟩
  · have hq : (x * bpb + j) / c.2 * c.2 + (x * bpb + j) % c.2 = x * bpb + j := by
      have := Nat.div_add_mod (x * bpb + j) c.2
      rw [Nat.mul_comm] at this
      omega
    rw [← blByteOffset_add _ _ gbh (x * bpb) j bpb y z hbpb16
      ⟨x, Nat.mul_comm x bpb⟩ hj]
    rw [← blByteOffset_add _ _ gbh ((x * bpb + j) / c.2 * c.2) ((x * bpb + j) % c.2)
      c.2 y z hc216 ⟨(x * bpb + j) / c.2, Nat.mul_comm _ _⟩ (Nat.mod_lt _ hinv3)]
    rw [hq]
  · rw [hc212, ← h12, hsplit.1, hsplit.2]

/-- C1 (amended): for supported bpb values, in-range texel block coordinates
and bytes, `CopyBlockLinearToPitch` (for a stride of zero or at least one
row) and `CopyPitchToBlockLinear` (for bpb other than 12) move the bpb bytes
of each element between the pitch offset
`(z * ceil(h / fmtBh) + y) * pitchBytes + x * bpb` and the block-linear
offset of the spec's section 4.B formula. -/
theorem copy_moves_each_element (dimensions : Dimensions)
    (fmtBw fmtBh bpb pitchAmount gbh gbd x y z j : Nat)
    (hbpb : bpb = 1 ∨ bpb = 2 ∨ bpb = 4 ∨ bpb = 8 ∨ bpb = 12 ∨ bpb = 16)
    (hgh : ∃ k, gbh = 2 ^ k) (hgd : ∃ k, gbd = 2 ^ k)
    (hx : x < divideCeil dimensions.width fmtBw)
    (hy : y < divideCeil dimensions.height fmtBh)
    (hz : z < dimensions.depth) (hj : j < bpb)
    (blockLinear pitchBuf : Buf) :
    ((pitchAmount = 0 ∨ divideCeil dimensions.width fmtBw * bpb ≤ pitchAmount) →
      CopyBlockLinearToPitch dimensions fmtBw fmtBh bpb pitchAmount gbh gbd
          blockLinear pitchBuf
          ((z * divideCeil dimensions.height fmtBh + y)
            * (if pitchAmount ≠ 0 then pitchAmount
               else divideCeil dimensions.width fmtBw * bpb) + x * bpb + j)
        = blockLinear
            (specBlockLinearOffset dimensions fmtBw fmtBh bpb gbh gbd x y z + j))
    ∧ (bpb ≠ 12 →
      CopyPitchToBlockLinear dimensions fmtBw fmtBh bpb pitchAmount gbh gbd
          pitchBuf blockLinear
          (specBlockLinearOffset dimensions fmtBw fmtBh bpb gbh gbd x y z + j)
        = pitchBuf ((z * divideCeil dimensions.height fmtBh + y)
            * (if pitchAmount ≠ 0 then pitchAmount
               else divideCeil dimensions.width fmtBw * bpb) + x * bpb + j)) := by
  constructor
  · intro hstride
    exact fullBLToPitch_element dimensions fmtBw fmtBh bpb pitchAmount gbh gbd
      hbpb hstride hgh hgd x y z j hx hy hz hj blockLinear pitchBuf
  · intro h12
    have hdvd : bpb ∣ 16 := by
      rcases hbpb with rfl | rfl | rfl | rfl | rfl | rfl
      · decide
      · decide
      · decide
      · decide
      · exact absurd rfl h12
      · decide
    have hpos : 0 < bpb := by
      rcases hbpb with rfl | rfl | rfl | rfl | rfl | rfl <;> decide
    exact fullPitchToBL_element dimensions fmtBw fmtBh bpb pitchAmount gbh gbd
      hdvd hpos hgh hgd x y z j hx hy hz hj pitchBuf blockLinear

/-- Witness for C1 at a concrete geometry and element. -/
theorem copy_moves_each_element_witness :
    CopyBlockLinearToPitch ⟨64, 8, 1⟩ 1 1 4 0 1 1 (fun a => a) (fun _ => 0)
        ((0 * divideCeil 8 1 + 2)
          * (if (0:Nat) ≠ 0 then 0 else divideCeil 64 1 * 4) + 3 * 4 + 1)
      = (fun a => a)
          (specBlockLinearOffset ⟨64, 8, 1⟩ 1 1 4 1 1 3 2 0 + 1)
    ∧ CopyPitchToBlockLinear ⟨64, 8, 1⟩ 1 1 4 0 1 1 (fun _ => 0) (fun a => a)
        (specBlockLinearOffset ⟨64, 8, 1⟩ 1 1 4 1 1 3 2 0 + 1)
      = (fun _ => (0:Nat))
          ((0 * divideCeil 8 1 + 2)
            * (if (0:Nat) ≠ 0 then 0 else divideCeil 64 1 * 4) + 3 * 4 + 1) := by
  have h := copy_moves_each_element ⟨64, 8, 1⟩ 1 1 4 0 1 1 3 2 0 1
    (by decide) ⟨0, rfl⟩ ⟨0, rfl⟩ (by decide) (by decide) (by decide) (by decide)
    (fun a => a) (fun _ => 0)
  exact ⟨h.1 (Or.inl rfl), h.2 (by decide)⟩

/-- Counterexample to C1 as stated: with bpb 1, a 2×2×1 surface and pitch
stride 1, the byte the copy stores at the pitch offset of element (1,0,0) is
not the block-linear byte at that element's formula offset (a later row
overwrites it). -/
theorem copy_moves_each_element_counterexample :
    ¬ (CopyBlockLinearToPitch ⟨2, 2, 1⟩ 1 1 1 1 1 1 (fun a => a) (fun _ => 0)
          ((0 * divideCeil 2 1 + 0) * 1 + 1 * 1 + 0)
        = (fun a : Nat => a)
            (specBlockLinearOffset ⟨2, 2, 1⟩ 1 1 1 1 1 1 0 0 + 0)) := by
  decide

/-- C2 (amended): for bpb in {1, 2, 4, 8, 16} and any geometry and stride,
copying pitch data into a block-linear buffer and copying it back yields the
original bytes over the whole copied region. -/
theorem blockLinear_roundtrip (dimensions : Dimensions)
    (fmtBw fmtBh bpb pitchAmount gbh gbd x y z j : Nat)
    (hbpb : bpb = 1 ∨ bpb = 2 ∨ bpb = 4 ∨ bpb = 8 ∨ bpb = 16)
    (hgh : ∃ k, gbh = 2 ^ k) (hgd : ∃ k, gbd = 2 ^ k)
    (hx : x < divideCeil dimensions.width fmtBw)
    (hy : y < divideCeil dimensions.height fmtBh)
    (hz : z < dimensions.depth) (hj : j < bpb)
    (B blockLinear0 pitch0 : Buf) :
    CopyBlockLinearToPitch dimensions fmtBw fmtBh bpb pitchAmount gbh gbd
        (CopyPitchToBlockLinear dimensions fmtBw fmtBh bpb pitchAmount gbh gbd
          B blockLinear0)
        pitch0
        ((z * divideCeil dimensions.height fmtBh + y)
          * (if pitchAmount ≠ 0 then pitchAmount
             else divideCeil dimensions.width fmtBw * bpb) + x * bpb + j)
      = B ((z * divideCeil dimensions.height fmtBh + y)
          * (if pitchAmount ≠ 0 then pitchAmount
             else divideCeil dimensions.width fmtBw * bpb) + x * bpb + j) := by
  have hdvd : bpb ∣ 16 := by
    rcases hbpb with rfl | rfl | rfl | rfl | rfl <;> decide
  have hpos : 0 < bpb := by
    rcases hbpb with rfl | rfl | rfl | rfl | rfl <;> decide
  have hgbh : 0 < gbh := by obtain ⟨k, rfl⟩ := hgh; positivity
  have hgbd : 0 < gbd := by obtain ⟨k, rfl⟩ := hgd; positivity
  obtain ⟨hinv1, hinv2, hinv3⟩ := coalesceWidth_inv (divideCeil dimensions.width fmtBw)
    bpb (divideCeil dimensions.width fmtBw * bpb) hpos rfl hdvd
  have hsupp := supportedBpb_of_dvd16 _ hinv2 hinv3
  have hc0 : x * bpb + j < divideCeil dimensions.width fmtBw * bpb := by
    have h1 : (x + 1) * bpb ≤ divideCeil dimensions.width fmtBw * bpb :=
      mul_le_mul_right' (by omega) bpb
    have h2 : (x + 1) * bpb = x * bpb + bpb := by ring
    omega
  have hrlt : z * divideCeil dimensions.height fmtBh + y
      < dimensions.depth * divideCeil dimensions.height fmtBh := by
    have h1 : (z + 1) * divideCeil dimensions.height fmtBh
        ≤ dimensions.depth * divideCeil dimensions.height fmtBh :=
      mul_le_mul_right' (by omega) _
    have h2 : (z + 1) * divideCeil dimensions.height fmtBh
        = z * divideCeil dimensions.height fmtBh
          + divideCeil dimensions.height fmtBh := by ring
    omega
  conv_lhs => rw [CopyBlockLinearToPitch, CopyBlockLinearInternal]
  simp only [GobWidth]
  rw [if_pos hsupp]
  rw [if_pos (by trivial : True)]
  have hcov : ∃ r, r < dimensions.depth * divideCeil dimensions.height fmtBh
      ∧ r * (if pitchAmount ≠ 0 then pitchAmount
            else divideCeil dimensions.width fmtBw * bpb)
        ≤ (z * divideCeil dimensions.height fmtBh + y)
          * (if pitchAmount ≠ 0 then pitchAmount
             else divideCeil dimensions.width fmtBw * bpb) + x * bpb + j
      ∧ (z * divideCeil dimensions.height fmtBh + y)
          * (if pitchAmount ≠ 0 then pitchAmount
             else divideCeil dimensions.width fmtBw * bpb) + x * bpb + j
        < r * (if pitchAmount ≠ 0 then pitchAmount
              else divideCeil dimensions.width fmtBw * bpb)
          + (coalesceWidth (divideCeil dimensions.width fmtBw) bpb
              (divideCeil dimensions.width fmtBw * bpb)).1
            * (coalesceWidth (divideCeil dimensions.width fmtBw) bpb
              (divideCeil dimensions.width fmtBw * bpb)).2 :=
    ⟨z * divideCeil dimensions.height fmtBh + y, hrlt, by omega, by omega⟩
  obtain ⟨z1, l1, x1, j1, hz1, hl1, hx1, hj1, haeq, -, hres⟩ :=
    blMoves_blToPitch_eval_ex dimensions.depth (divideCeil dimensions.height fmtBh)
      (coalesceWidth (divideCeil dimensions.width fmtBw) bpb
        (divideCeil dimensions.width fmtBw * bpb)).1
      (coalesceWidth (divideCeil dimensions.width fmtBw) bpb
        (divideCeil dimensions.width fmtBw * bpb)).2
      (if pitchAmount ≠ 0 then pitchAmount
       else divideCeil dimensions.width fmtBw * bpb)
      0 0 (alignUp (divideCeil dimensions.width fmtBw * bpb) 64)
      (alignUp dimensions.depth gbd) gbh hgh hinv3 _ hcov
      (CopyPitchToBlockLinear dimensions fmtBw fmtBh bpb pitchAmount gbh gbd
        B blockLinear0) pitch0
  rw [hres]
  have hfit : 0 + (coalesceWidth (divideCeil dimensions.width fmtBw) bpb
        (divideCeil dimensions.width fmtBw * bpb)).1
      * (coalesceWidth (divideCeil dimensions.width fmtBw) bpb
        (divideCeil dimensions.width fmtBw * bpb)).2
      ≤ alignUp (divideCeil dimensions.width fmtBw * bpb) 64 := by
    rw [Nat.zero_add, hinv1]
    exact le_alignUp _ _ (by norm_num)
  have hDAD : dimensions.depth ≤ alignUp dimensions.depth gbd := le_alignUp _ _ hgbd
  conv_lhs => rw [CopyPitchToBlockLinear, CopyBlockLinearInternal]
  simp only [GobWidth]
  rw [if_pos hsupp]
  rw [if_neg (by simp : ¬ ((false : Bool) = true))]
  rw [blMoves_pitchToBL_eval dimensions.depth (divideCeil dimensions.height fmtBh)
    (coalesceWidth (divideCeil dimensions.width fmtBw) bpb
      (divideCeil dimensions.width fmtBw * bpb)).1
    (coalesceWidth (divideCeil dimensions.width fmtBw) bpb
      (divideCeil dimensions.width fmtBw * bpb)).2
    (if pitchAmount ≠ 0 then pitchAmount
     else divideCeil dimensions.width fmtBw * bpb)
    0 0 (alignUp (divideCeil dimensions.width fmtBw * bpb) 64)
    (alignUp dimensions.depth gbd) gbh hgh hinv3 hinv2 (dvd_zero _) hfit
    (dvd_alignUp _ _) hDAD z1 l1 x1 j1 hz1 hl1 hx1 hj1 B blockLinear0]
  rw [← haeq]

/-- Witness for C2 at a concrete geometry, stride and element. -/
theorem blockLinear_roundtrip_witness :
    CopyBlockLinearToPitch ⟨64, 8, 1⟩ 1 1 4 100 1 1
        (CopyPitchToBlockLinear ⟨64, 8, 1⟩ 1 1 4 100 1 1 (fun a => a) (fun _ => 0))
        (fun _ => 0)
        ((0 * divideCeil 8 1 + 3)
          * (if (100:Nat) ≠ 0 then 100 else divideCeil 64 1 * 4) + 5 * 4 + 2)
      = (fun a => a)
          ((0 * divideCeil 8 1 + 3)
            * (if (100:Nat) ≠ 0 then 100 else divideCeil 64 1 * 4) + 5 * 4 + 2) :=
  blockLinear_roundtrip ⟨64, 8, 1⟩ 1 1 4 100 1 1 5 3 0 2 (by decide)
    ⟨0, rfl⟩ ⟨0, rfl⟩ (by decide) (by decide) (by decide) (by decide)
    (fun a => a) (fun _ => 0) (fun _ => 0)

/-- Counterexample to C2 as stated: with bpb 12 the 12-byte stores cross
16-byte sector boundaries and collide, so the round trip corrupts bytes. -/
theorem blockLinear_roundtrip_counterexample :
    ¬ (CopyBlockLinearToPitch ⟨2, 2, 1⟩ 1 1 12 0 1 1
          (CopyPitchToBlockLinear ⟨2, 2, 1⟩ 1 1 12 0 1 1 (fun a => a) (fun _ => 0))
          (fun _ => 0) 16
        = (fun a : Nat => a) 16) := by
  decide

/-- Two copier move lists with the same row byte count (and element sizes
dividing 16) transform every byte of every buffer identically: coalescing is
byte-equivalent. -/
theorem blMoves_coalesce_indep (dir : Bool)
    (D H w1 b1 w2 b2 WB pB oxB oyOff wA AD gbh : Nat)
    (hgh : ∃ k, gbh = 2 ^ k)
    (hw1 : w1 * b1 = WB) (hw2 : w2 * b2 = WB)
    (hb1 : 0 < b1) (hb2 : 0 < b2) (hd1 : b1 ∣ 16) (hd2 : b2 ∣ 16)
    (hox1 : b1 ∣ oxB) (hox2 : b2 ∣ oxB)
    (hfit : oxB + WB ≤ wA) (h64 : 64 ∣ wA) (hDAD : D ≤ AD)
    (s buf : Buf) (a : Nat) :
    applyMoves s (blSurfaceMoves dir D H w1 b1 pB oxB oyOff wA AD gbh) buf a
      = applyMoves s (blSurfaceMoves dir D H w2 b2 pB oxB oyOff wA AD gbh) buf a := by
  cases dir
  · by_cases hcv : ∃ z, z < D ∧ ∃ l, l < H ∧ ∃ c, c < WB
        ∧ a = blByteOffset wA AD gbh (oxB + c) (oyOff + l) z
    · obtain ⟨z, hz, l, hl, c, hc, rfl⟩ := hcv
      have key : ∀ w b, w * b = WB → 0 < b → b ∣ 16 → b ∣ oxB →
          applyMoves s (blSurfaceMoves false D H w b pB oxB oyOff wA AD gbh) buf
              (blByteOffset wA AD gbh (oxB + c) (oyOff + l) z)
            = s ((z * H + l) * pB + c) := by
        intro w b hw hb hd hox
        have hsplit : c / b * b + c % b = c := by
          have := Nat.div_add_mod c b
          rw [Nat.mul_comm] at this
          omega
        have hxw : c / b < w := (Nat.div_lt_iff_lt_mul hb).mpr (by omega)
        have hcrw : oxB + c = oxB + c / b * b + c % b := by omega
        have hdvdu : b ∣ oxB + c / b * b := Nat.dvd_add hox ⟨c / b, Nat.mul_comm _ _⟩
        have hσ : blByteOffset wA AD gbh (oxB + c) (oyOff + l) z
            = blByteOffset wA AD gbh (oxB + c / b * b) (oyOff + l) z + c % b := by
          rw [hcrw]
          exact blByteOffset_add wA AD gbh (oxB + c / b * b) (c % b) b _ _ hd hdvdu
            (Nat.mod_lt _ hb)
        rw [hσ]
        rw [blMoves_pitchToBL_eval D H w b pB oxB oyOff wA AD gbh hgh hb hd hox
          (by omega : oxB + w * b ≤ wA) h64 hDAD z l (c / b) (c % b) hz hl hxw
          (Nat.mod_lt _ hb) s buf]
        congr 1
        omega
      rw [key w1 b1 hw1 hb1 hd1 hox1, key w2 b2 hw2 hb2 hd2 hox2]
    · have key : ∀ w b, w * b = WB → 0 < b → b ∣ 16 → b ∣ oxB →
          applyMoves s (blSurfaceMoves false D H w b pB oxB oyOff wA AD gbh) buf a
            = buf a := by
        intro w b hw hb hd hox
        apply blMoves_pitchToBL_frame D H w b pB oxB oyOff wA AD gbh hgh hb hd hox
        intro z hz l hl c hc heq
        exact hcv ⟨z, hz, l, hl, c, by omega, heq⟩
      rw [key w1 b1 hw1 hb1 hd1 hox1, key w2 b2 hw2 hb2 hd2 hox2]
  · by_cases hcv : ∃ r, r < D * H ∧ r * pB ≤ a ∧ a < r * pB + WB
    · have key : ∀ w b, w * b = WB → 0 < b → b ∣ 16 → b ∣ oxB →
          ∃ z l c, z < D ∧ l < H ∧ c < WB ∧ a = (z * H + l) * pB + c
            ∧ (∀ r', z * H + l < r' → r' < D * H →
                ¬ (r' * pB ≤ a ∧ a < r' * pB + WB))
            ∧ applyMoves s (blSurfaceMoves true D H w b pB oxB oyOff wA AD gbh) buf a
                = s (blByteOffset wA AD gbh (oxB + c) (oyOff + l) z) := by
        intro w b hw hb hd hox
        obtain ⟨r0, hr0, hra, hrb⟩ := hcv
        obtain ⟨z1, l1, x1, j1, hz1, hl1, hx1, hj1, haeq, hmax1, hres⟩ :=
          blMoves_blToPitch_eval_ex D H w b pB oxB oyOff wA AD gbh hgh hb a
            ⟨r0, hr0, hra, by omega⟩ s buf
        have hcWB : x1 * b + j1 < WB := by
          have h1 : (x1 + 1) * b ≤ w * b := mul_le_mul_right' (by omega) b
          have h2 : (x1 + 1) * b = x1 * b + b := by ring
          omega
        refine ⟨z1, l1, x1 * b + j1, hz1, hl1, hcWB, by omega,
          fun r' h1 h2 hP => hmax1 r' h1 h2 ⟨hP.1, by omega⟩, ?_⟩
        rw [hres]
        congr 1
        rw [show oxB + (x1 * b + j1) = oxB + x1 * b + j1 by omega,
          blByteOffset_add wA AD gbh (oxB + x1 * b) j1 b _ _ hd
            (Nat.dvd_add hox ⟨x1, Nat.mul_comm _ _⟩) hj1]
      obtain ⟨z1, l1, c1, hz1, hl1, hc1, ha1, hm1, hres1⟩ := key w1 b1 hw1 hb1 hd1 hox1
      obtain ⟨z2, l2, c2, hz2, hl2, hc2, ha2, hm2, hres2⟩ := key w2 b2 hw2 hb2 hd2 hox2
      have hrow1lt : z1 * H + l1 < D * H := by
        have h1 : (z1 + 1) * H ≤ D * H := mul_le_mul_right' (by omega) H
        have h2 : (z1 + 1) * H = z1 * H + H := by ring
        omega
      have hrow2lt : z2 * H + l2 < D * H := by
        have h1 : (z2 + 1) * H ≤ D * H := mul_le_mul_right' (by omega) H
        have h2 : (z2 + 1) * H = z2 * H + H := by ring
        omega
      have hr12 : z1 * H + l1 = z2 * H + l2 := by
        rcases Nat.lt_trichotomy (z1 * H + l1) (z2 * H + l2) with h | h | h
        · exact absurd ⟨by omega, by omega⟩ (hm1 (z2 * H + l2) h hrow2lt)
        · exact h
        · exact absurd ⟨by omega, by omega⟩ (hm2 (z1 * H + l1) h hrow1lt)
      obtain ⟨hz12, hl12⟩ := mul_add_eq_unique H z1 l1 z2 l2 hl1 hl2 hr12
      rw [hr12] at ha1
      have hc12 : c1 = c2 := by omega
      rw [hres1, hres2, hz12, hl12, hc12]
    · have key : ∀ w b, w * b = WB → 0 < b →
          applyMoves s (blSurfaceMoves true D H w b pB oxB oyOff wA AD gbh) buf a
            = buf a := by
        intro w b hw hb
        rw [blSurfaceMoves_eq_arith true D H w b pB oxB oyOff wA AD gbh hgh]
        apply applyMoves_notCovered
        intro m hm
        simp only [List.mem_flatMap, List.mem_map, List.mem_range] at hm
        obtain ⟨z', hz', l', hl', x', hx', rfl⟩ := hm
        intro hcovm
        rw [blArithMove_true] at hcovm
        simp only [Move.covers] at hcovm
        obtain ⟨hA, hB⟩ := hcovm
        have hrowlt : z' * H + l' < D * H := by
          have h1 : (z' + 1) * H ≤ D * H := mul_le_mul_right' (by omega) H
          have h2 : (z' + 1) * H = z' * H + H := by ring
          omega
        have hxb : x' * b + b ≤ w * b := by
          have h1 : (x' + 1) * b ≤ w * b := mul_le_mul_right' (by omega) b
          have h2 : (x' + 1) * b = x' * b + b := by ring
          omega
        exact hcv ⟨z' * H + l', hrowlt, by omega, by omega⟩
      rw [key w1 b1 hw1 hb1, key w2 b2 hw2 hb2]

/-- C4: for bpb in {1, 2, 4, 8, 16} and a texture width divisible by 16, the
coalescing full-surface copier — in both directions and in both repository
versions of its coalescing condition — produces output byte-identical to the
reference copier that moves bpb bytes per element without coalescing. -/
theorem coalescing_equivalence (dimensions : Dimensions)
    (fmtBw fmtBh bpb pitchAmount gbh gbd : Nat) (dir : Bool) (a : Nat)
    (hbpb : bpb = 1 ∨ bpb = 2 ∨ bpb = 4 ∨ bpb = 8 ∨ bpb = 16)
    (h16 : 16 ∣ divideCeil dimensions.width fmtBw)
    (hgh : ∃ k, gbh = 2 ^ k) (hgd : ∃ k, gbd = 2 ^ k)
    (blockLinear pitchBuf : Buf) :
    CopyBlockLinearInternal dir dimensions fmtBw fmtBh bpb pitchAmount gbh gbd
        blockLinear pitchBuf a
      = CopyBlockLinearReference dir dimensions fmtBw fmtBh bpb pitchAmount gbh gbd
          blockLinear pitchBuf a
    ∧ CopyBlockLinearInternalOld dir dimensions fmtBw fmtBh bpb pitchAmount gbh gbd
        blockLinear pitchBuf a
      = CopyBlockLinearReference dir dimensions fmtBw fmtBh bpb pitchAmount gbh gbd
          blockLinear pitchBuf a := by
  have hdvd : bpb ∣ 16 := by
    rcases hbpb with rfl | rfl | rfl | rfl | rfl <;> decide
  have hpos : 0 < bpb := by
    rcases hbpb with rfl | rfl | rfl | rfl | rfl <;> decide
  have hgbd : 0 < gbd := by obtain ⟨k, rfl⟩ := hgd; positivity
  obtain ⟨hinv1, hinv2, hinv3⟩ := coalesceWidth_inv (divideCeil dimensions.width fmtBw)
    bpb (divideCeil dimensions.width fmtBw * bpb) hpos rfl hdvd
  obtain ⟨hoinv1, hoinv2, hoinv3⟩ :=
    coalesceWidthOld_inv (divideCeil dimensions.width fmtBw) bpb
      (divideCeil dimensions.width fmtBw * bpb) hpos rfl hdvd
  have hfit : 0 + divideCeil dimensions.width fmtBw * bpb
      ≤ alignUp (divideCeil dimensions.width fmtBw * bpb) 64 := by
    rw [Nat.zero_add]
    exact le_alignUp _ _ (by norm_num)
  have hDAD : dimensions.depth ≤ alignUp dimensions.depth gbd := le_alignUp _ _ hgbd
  constructor
  · simp only [CopyBlockLinearInternal, CopyBlockLinearReference, GobWidth]
    rw [if_pos (supportedBpb_of_dvd16 _ hinv2 hinv3),
      if_pos (supportedBpb_of_dvd16 _ hdvd hpos)]
    cases dir
    · rw [if_neg (by simp : ¬ ((false : Bool) = true)),
        if_neg (by simp : ¬ ((false : Bool) = true))]
      exact blMoves_coalesce_indep false dimensions.depth
        (divideCeil dimensions.height fmtBh)
        (coalesceWidth (divideCeil dimensions.width fmtBw) bpb
          (divideCeil dimensions.width fmtBw * bpb)).1
        (coalesceWidth (divideCeil dimensions.width fmtBw) bpb
          (divideCeil dimensions.width fmtBw * bpb)).2
        (divideCeil dimensions.width fmtBw) bpb
        (divideCeil dimensions.width fmtBw * bpb)
        (if pitchAmount ≠ 0 then pitchAmount
         else divideCeil dimensions.width fmtBw * bpb)
        0 0 (alignUp (divideCeil dimensions.width fmtBw * bpb) 64)
        (alignUp dimensions.depth gbd) gbh hgh hinv1 rfl hinv3 hpos hinv2 hdvd
        (dvd_zero _) (dvd_zero _) hfit (dvd_alignUp _ _) hDAD pitchBuf blockLinear a
    · rw [if_pos (rfl : (true : Bool) = true), if_pos (rfl : (true : Bool) = true)]
      exact blMoves_coalesce_indep true dimensions.depth
        (divideCeil dimensions.height fmtBh)
        (coalesceWidth (divideCeil dimensions.width fmtBw) bpb
          (divideCeil dimensions.width fmtBw * bpb)).1
        (coalesceWidth (divideCeil dimensions.width fmtBw) bpb
          (divideCeil dimensions.width fmtBw * bpb)).2
        (divideCeil dimensions.width fmtBw) bpb
        (divideCeil dimensions.width fmtBw * bpb)
        (if pitchAmount ≠ 0 then pitchAmount
         else divideCeil dimensions.width fmtBw * bpb)
        0 0 (alignUp (divideCeil dimensions.width fmtBw * bpb) 64)
        (alignUp dimensions.depth gbd) gbh hgh hinv1 rfl hinv3 hpos hinv2 hdvd
        (dvd_zero _) (dvd_zero _) hfit (dvd_alignUp _ _) hDAD blockLinear pitchBuf a
  · simp only [CopyBlockLinearInternalOld, CopyBlockLinearReference, GobWidth]
    rw [if_pos (supportedBpb_of_dvd16 _ hoinv2 hoinv3),
      if_pos (supportedBpb_of_dvd16 _ hdvd hpos)]
    cases dir
    · rw [if_neg (by simp : ¬ ((false : Bool) = true)),
        if_neg (by simp : ¬ ((false : Bool) = true))]
      exact blMoves_coalesce_indep false dimensions.depth
        (divideCeil dimensions.height fmtBh)
        (coalesceWidthOld (divideCeil dimensions.width fmtBw) bpb).1
        (coalesceWidthOld (divideCeil dimensions.width fmtBw) bpb).2
        (divideCeil dimensions.width fmtBw) bpb
        (divideCeil dimensions.width fmtBw * bpb)
        (if pitchAmount ≠ 0 then pitchAmount
         else divideCeil dimensions.width fmtBw * bpb)
        0 0 (alignUp (divideCeil dimensions.width fmtBw * bpb) 64)
        (alignUp dimensions.depth gbd) gbh hgh hoinv1 rfl hoinv3 hpos hoinv2 hdvd
        (dvd_zero _) (dvd_zero _) hfit (dvd_alignUp _ _) hDAD pitchBuf blockLinear a
    · rw [if_pos (rfl : (true : Bool) = true), if_pos (rfl : (true : Bool) = true)]
      exact blMoves_coalesce_indep true dimensions.depth
        (divideCeil dimensions.height fmtBh)
        (coalesceWidthOld (divideCeil dimensions.width fmtBw) bpb).1
        (coalesceWidthOld (divideCeil dimensions.width fmtBw) bpb).2
        (divideCeil dimensions.width fmtBw) bpb
        (divideCeil dimensions.width fmtBw * bpb)
        (if pitchAmount ≠ 0 then pitchAmount
         else divideCeil dimensions.width fmtBw * bpb)
        0 0 (alignUp (divideCeil dimensions.width fmtBw * bpb) 64)
        (alignUp dimensions.depth gbd) gbh hgh hoinv1 rfl hoinv3 hpos hoinv2 hdvd
        (dvd_zero _) (dvd_zero _) hfit (dvd_alignUp _ _) hDAD blockLinear pitchBuf a

/-- Witness for C4 at a concrete geometry, both versions, at one byte. -/
theorem coalescing_equivalence_witness :
    CopyBlockLinearInternal true ⟨16, 16, 1⟩ 1 1 2 0 2 1 (fun v => v * 3) (fun _ => 7) 19
        = CopyBlockLinearReference true ⟨16, 16, 1⟩ 1 1 2 0 2 1 (fun v => v * 3)
            (fun _ => 7) 19
      ∧ CopyBlockLinearInternalOld true ⟨16, 16, 1⟩ 1 1 2 0 2 1 (fun v => v * 3)
            (fun _ => 7) 19
        = CopyBlockLinearReference true ⟨16, 16, 1⟩ 1 1 2 0 2 1 (fun v => v * 3)
            (fun _ => 7) 19 :=
  coalescing_equivalence ⟨16, 16, 1⟩ 1 1 2 0 2 1 true 19 (by decide) (by decide)
    ⟨1, rfl⟩ ⟨0, rfl⟩ (fun v => v * 3) (fun _ => 7)

theorem mipLayoutAux_sum_eq (fbh fbw bpb tfbh tfbw tbpb : Nat) :
    ∀ (n : Nat) (dims : Dimensions) (gw gh gbh gbd : Nat),
      ((GetBlockLinearMipLayoutAux fbh fbw bpb tfbh tfbw tbpb dims gw gh gbh gbd n).map
          MipLevelLayout.blockLinearSize).sum
        = GetBlockLinearLayerSizeAux gw gh dims.depth gbh gbd n := by
  intro n
  induction n with
  | zero => intro dims gw gh gbh gbd; rfl
  | succ n ih =>
    intro dims gw gh gbh gbd
    simp only [GetBlockLinearMipLayoutAux, GetBlockLinearLayerSizeAux,
      List.map_cons, List.sum_cons]
    rw [ih ⟨max (dims.width / 2) 1, max (dims.height / 2) 1, max (dims.depth / 2) 1⟩]

/-- C6: the sum of `blockLinearSize` over the mip descriptors equals the
multi-mip layer size with the same parameters and `isMultiLayer = false`. -/
theorem mipLayout_sum_eq_layerSize (dimensions : Dimensions)
    (formatBlockHeight formatBlockWidth formatBpb : Nat)
    (targetFormatBlockHeight targetFormatBlockWidth targetFormatBpb : Nat)
    (gobBlockHeight gobBlockDepth levelCount : Nat)
    (hlevel : 1 ≤ levelCount) :
    ((GetBlockLinearMipLayout dimensions formatBlockHeight formatBlockWidth formatBpb
        targetFormatBlockHeight targetFormatBlockWidth targetFormatBpb
        gobBlockHeight gobBlockDepth levelCount).map MipLevelLayout.blockLinearSize).sum
      = GetBlockLinearLayerSizeMultiMip dimensions formatBlockHeight formatBlockWidth
          formatBpb gobBlockHeight gobBlockDepth levelCount false := by
  unfold GetBlockLinearMipLayout GetBlockLinearLayerSizeMultiMip
  simp only [if_false, Bool.false_eq_true]
  exact mipLayoutAux_sum_eq _ _ _ _ _ _ _ _ _ _ _ _

/-- Witness for C6 at a concrete mip chain. -/
theorem mipLayout_sum_eq_layerSize_witness :
    ((GetBlockLinearMipLayout ⟨256, 256, 1⟩ 1 1 4 1 1 4 4 1 5).map
        MipLevelLayout.blockLinearSize).sum
      = GetBlockLinearLayerSizeMultiMip ⟨256, 256, 1⟩ 1 1 4 4 1 5 false :=
  mipLayout_sum_eq_layerSize ⟨256, 256, 1⟩ 1 1 4 1 1 4 4 1 5 (by decide)

/-- C3: the single-layer layer size is exactly the ROB-geometry product the
spec gives (section 4.A): aligned ROB line bytes times ROB height times the
surface height in ROBs times the aligned depth. -/
theorem getBlockLinearLayerSize_formula (dimensions : Dimensions)
    (formatBlockWidth formatBlockHeight formatBpb gobBlockHeight gobBlockDepth : Nat)
    (hw : 1 ≤ dimensions.width) (hh : 1 ≤ dimensions.height) (hd : 1 ≤ dimensions.depth)
    (hfw : 1 ≤ formatBlockWidth) (hfh : 1 ≤ formatBlockHeight)
    (hgh : ∃ k, gobBlockHeight = 2 ^ k) (hgd : ∃ k, gobBlockDepth = 2 ^ k) :
    GetBlockLinearLayerSize dimensions formatBlockWidth formatBlockHeight formatBpb
        gobBlockHeight gobBlockDepth
      = alignUp (divideCeil dimensions.width formatBlockWidth * formatBpb) 64
        * (8 * gobBlockHeight)
        * divideCeil (divideCeil dimensions.height formatBlockHeight) (8 * gobBlockHeight)
        * alignUp dimensions.depth gobBlockDepth := by
  rfl

/-- Witness for C3 at scenario S2's geometry. -/
theorem getBlockLinearLayerSize_formula_witness :
    GetBlockLinearLayerSize ⟨128, 16, 1⟩ 1 1 4 2 1
        = alignUp (divideCeil 128 1 * 4) 64 * (8 * 2)
          * divideCeil (divideCeil 16 1) (8 * 2) * alignUp 1 1
      ∧ GetBlockLinearLayerSize ⟨128, 16, 1⟩ 1 1 4 2 1 = 8192 := by
  constructor
  · exact getBlockLinearLayerSize_formula ⟨128, 16, 1⟩ 1 1 4 2 1 (by decide) (by decide)
      (by decide) (by decide) (by decide) ⟨1, rfl⟩ ⟨0, rfl⟩
  · decide

/-- C5 (amended): for the 64×8×1 surface with bpb=4, gbh=gbd=1 and format
block 1×1, the layer occupies four GOBs (2048 bytes, not one GOB of 512), and
the pitch-to-block-linear copy places the byte at linear offset `i*4` of each
texel `i < 512` at the swizzled offset the spec formula gives; in particular
texel (16,0) lands at offset 0x200 (not 0x100), texel (0,1) at 0x10, and
texel (0,7) at 0xD0 (not 0x70). -/
theorem s1_scenario (p b : Buf) (i : Nat) (hi : i < 512) :
    GetBlockLinearLayerSize ⟨64, 8, 1⟩ 1 1 4 1 1 = 2048
    ∧ CopyPitchToBlockLinear ⟨64, 8, 1⟩ 1 1 4 0 1 1 p b
        (specBlockLinearOffset ⟨64, 8, 1⟩ 1 1 4 1 1 (i % 64) (i / 64) 0) = p (i * 4)
    ∧ CopyPitchToBlockLinear ⟨64, 8, 1⟩ 1 1 4 0 1 1 p b 0x200 = p 64
    ∧ CopyPitchToBlockLinear ⟨64, 8, 1⟩ 1 1 4 0 1 1 p b 0x10 = p 256
    ∧ CopyPitchToBlockLinear ⟨64, 8, 1⟩ 1 1 4 0 1 1 p b 0xD0 = p 1792 := by
  refine ⟨rfl, ?_, ?_, ?_, ?_⟩
  · have h := fullPitchToBL_element ⟨64, 8, 1⟩ 1 1 4 0 1 1 (by decide) (by decide)
      ⟨0, rfl⟩ ⟨0, rfl⟩ (i % 64) (i / 64) 0 0
      (Nat.mod_lt i (by decide)) (by show i / 64 < 8; omega) (by decide) (by decide) p b
    rw [Nat.add_zero] at h
    rw [h]
    congr 1
    have hdm := Nat.div_add_mod i 64
    norm_num [divideCeil]
    omega
  · exact fullPitchToBL_element ⟨64, 8, 1⟩ 1 1 4 0 1 1 (by decide) (by decide)
      ⟨0, rfl⟩ ⟨0, rfl⟩ 16 0 0 0 (by decide) (by decide) (by decide) (by decide) p b
  · exact fullPitchToBL_element ⟨64, 8, 1⟩ 1 1 4 0 1 1 (by decide) (by decide)
      ⟨0, rfl⟩ ⟨0, rfl⟩ 0 1 0 0 (by decide) (by decide) (by decide) (by decide) p b
  · exact fullPitchToBL_element ⟨64, 8, 1⟩ 1 1 4 0 1 1 (by decide) (by decide)
      ⟨0, rfl⟩ ⟨0, rfl⟩ 0 7 0 0 (by decide) (by decide) (by decide) (by decide) p b

/-- Counterexample to C5 as stated: the 64×8×1 bpb=4 layer is not 512 bytes,
texel (16,0) does not land at 0x100 nor texel (0,7) at 0x70, and the copy
writes bytes beyond the first GOB (at offset 1836). -/
theorem s1_counterexample :
    GetBlockLinearLayerSize ⟨64, 8, 1⟩ 1 1 4 1 1 ≠ 512
    ∧ specBlockLinearOffset ⟨64, 8, 1⟩ 1 1 4 1 1 16 0 0 ≠ 0x100
    ∧ specBlockLinearOffset ⟨64, 8, 1⟩ 1 1 4 1 1 0 7 0 ≠ 0x70
    ∧ CopyPitchToBlockLinear ⟨64, 8, 1⟩ 1 1 4 0 1 1 (fun a => a + 1) (fun _ => 0) 1836
        ≠ 0 := by
  refine ⟨by decide, by decide, by decide, ?_⟩
  have h := fullPitchToBL_element ⟨64, 8, 1⟩ 1 1 4 0 1 1 (by decide) (by decide)
    ⟨0, rfl⟩ ⟨0, rfl⟩ 63 0 0 0 (by decide) (by decide) (by decide) (by decide)
    (fun a => a + 1) (fun _ => 0)
  rw [show specBlockLinearOffset ⟨64, 8, 1⟩ 1 1 4 1 1 63 0 0 + 0 = 1836 from by decide] at h
  rw [h]
  decide

/-- Witness for C5 at texel 5 and the identity pitch buffer. -/
theorem s1_witness :
    (5 : Nat) < 512
    ∧ (GetBlockLinearLayerSize ⟨64, 8, 1⟩ 1 1 4 1 1 = 2048
    ∧ CopyPitchToBlockLinear ⟨64, 8, 1⟩ 1 1 4 0 1 1 (fun a => a) (fun _ => 0)
        (specBlockLinearOffset ⟨64, 8, 1⟩ 1 1 4 1 1 (5 % 64) (5 / 64) 0)
        = (fun a : Nat => a) (5 * 4)
    ∧ CopyPitchToBlockLinear ⟨64, 8, 1⟩ 1 1 4 0 1 1 (fun a => a) (fun _ => 0) 0x200
        = (fun a : Nat => a) 64
    ∧ CopyPitchToBlockLinear ⟨64, 8, 1⟩ 1 1 4 0 1 1 (fun a => a) (fun _ => 0) 0x10
        = (fun a : Nat => a) 256
    ∧ CopyPitchToBlockLinear ⟨64, 8, 1⟩ 1 1 4 0 1 1 (fun a => a) (fun _ => 0) 0xD0
        = (fun a : Nat => a) 1792) :=
  ⟨by decide, s1_scenario (fun a => a) (fun _ => 0) 5 (by decide)⟩

end Skyline
